import Mathlib

/-!
Verification of the markdown-to-catalog extractor and search index of
awesome-omarchy-tui (src/models.rs, src/parser.rs), shallowly embedded in Lean.

Strings are modelled as lists of characters (`Str`); Rust's `f64` relevance
scores are modelled as exact rationals, and the `HashMap` of index terms as an
association list (iteration order in the original is unspecified, so all
theorems below are stated order-robustly over the list representation).
-/

/-- Strings as character lists (model of Rust `String`/`&str`). -/
abbrev Str := List Char

/-- Model of Rust `str::starts_with`: `strStartsWith s p` iff `p` is an initial
segment of `s`. -/
def strStartsWith : Str → Str → Bool
  | _, [] => true
  | [], _ :: _ => false
  | a :: s, b :: p => a = b && strStartsWith s p

/-- Model of Rust `str::ends_with`. -/
def strEndsWith (s p : Str) : Bool :=
  strStartsWith s.reverse p.reverse

/-- Model of Rust `str::contains` (substring occurrence of `needle` in `hay`). -/
def containsSub : Str → Str → Bool
  | hay, needle =>
    strStartsWith hay needle ||
      match hay with
      | [] => false
      | _ :: t => containsSub t needle

/-- Model of Rust `str::find`: index of the first occurrence of `needle`. -/
def findSub : Str → Str → Option Nat
  | hay, needle =>
    if strStartsWith hay needle then some 0
    else
      match hay with
      | [] => none
      | _ :: t => (findSub t needle).map (· + 1)

/-- Model of Rust `str::trim` (drop leading and trailing whitespace). -/
def strTrim (s : Str) : Str :=
  ((s.dropWhile Char.isWhitespace).reverse.dropWhile Char.isWhitespace).reverse

/-- Model of Rust `str::to_lowercase` (ASCII-idealised, characterwise). -/
def toLowerStr (s : Str) : Str := s.map Char.toLower

/-- Accumulator for `splitWs`. -/
def splitWsGo : Str → Str → List Str
  | [], acc => if acc = [] then [] else [acc.reverse]
  | c :: rest, acc =>
    if c.isWhitespace then
      if acc = [] then splitWsGo rest [] else acc.reverse :: splitWsGo rest []
    else splitWsGo rest (c :: acc)

/-- Model of Rust `str::split_whitespace`. -/
def splitWs (s : Str) : List Str := splitWsGo s []

/-! ## Data model (src/models.rs) -/

/-- Rust `SearchPriority` (models.rs). -/
inductive SearchPriority
  | RepositoryName
  | Description
  | RawContent
  deriving DecidableEq, Repr

/-- Rust `SearchPriority::score_multiplier` (models.rs). Scores are modelled as
exact rationals. -/
def SearchPriority.score_multiplier : SearchPriority → ℚ
  | .RepositoryName => 2
  | .Description => 3 / 2
  | .RawContent => 1 / 10

/-- Rust `SearchLocation` (models.rs). -/
structure SearchLocation where
  section_index : Nat
  entry_index : Option Nat
  line_content : Str
  start_pos : Nat
  end_pos : Nat
  search_priority : SearchPriority
  github_url : Option Str
  deriving DecidableEq, Repr

/-- Rust `SearchResult` (models.rs). -/
structure SearchResult where
  section_index : Nat
  entry_index : Option Nat
  line_content : Str
  relevance_score : ℚ
  github_url : Option Str
  deriving DecidableEq, Repr

/-- Rust `SearchIndex` (models.rs); the `HashMap` of terms is modelled as an
association list of buckets. -/
structure SearchIndex where
  terms : List (Str × List SearchLocation)
  total_terms : Nat
  deriving DecidableEq, Repr

instance : Inhabited SearchIndex := ⟨⟨[], 0⟩⟩

/-- Rust `terms.entry(k).or_default().push(loc)`: append to the bucket of `k`,
inserting a fresh bucket when the key is absent. -/
def addToBucket (k : Str) (loc : SearchLocation) :
    List (Str × List SearchLocation) → List (Str × List SearchLocation)
  | [] => [(k, [loc])]
  | (t, b) :: rest =>
    if t = k then (t, b ++ [loc]) :: rest else (t, b) :: addToBucket k loc rest

/-- Rust `SearchIndex::add_term` (models.rs). -/
def SearchIndex.add_term (idx : SearchIndex) (term : Str) (loc : SearchLocation) :
    SearchIndex :=
  { terms := addToBucket (toLowerStr term) loc idx.terms
    total_terms := idx.total_terms + 1 }

/-- Rust `calculate_relevance_score` (models.rs). -/
def calculate_relevance_score (term query : Str) : ℚ :=
  if term = query then 1
  else if strStartsWith term query then 4 / 5
  else if strEndsWith term query then 3 / 5
  else 2 / 5

/-- Aggregation key: `(location.section_index, location.entry_index)`. -/
abbrev EntryKey := Nat × Option Nat

/-- The `and_modify` closure of `SearchIndex::search`: prefer repository-name
text for display, keep the maximum score. -/
def modifyRes (loc : SearchLocation) (score : ℚ) (r : SearchResult) (m : ℚ) :
    SearchResult × ℚ :=
  let r := if loc.search_priority = SearchPriority.RepositoryName then
      { r with line_content := loc.line_content } else r
  if m < score then ({ r with relevance_score := score }, score) else (r, m)

/-- The `or_insert_with` closure of `SearchIndex::search`. -/
def mkResult (loc : SearchLocation) (score : ℚ) : SearchResult :=
  { section_index := loc.section_index
    entry_index := loc.entry_index
    line_content := loc.line_content
    relevance_score := score
    github_url := loc.github_url }

/-- Rust `entry_results.entry(k).and_modify(..).or_insert_with(..)` on the
association-list model of the results map. -/
def aggInsert (k : EntryKey) (loc : SearchLocation) (score : ℚ) :
    List (EntryKey × SearchResult × ℚ) → List (EntryKey × SearchResult × ℚ)
  | [] => [(k, mkResult loc score, score)]
  | (k', r, m) :: rest =>
    if k' = k then (k', modifyRes loc score r m) :: rest
    else (k', r, m) :: aggInsert k loc score rest

/-- One aggregation step of `SearchIndex::search`. -/
def aggStep (acc : List (EntryKey × SearchResult × ℚ))
    (c : EntryKey × SearchLocation × ℚ) : List (EntryKey × SearchResult × ℚ) :=
  aggInsert c.1 c.2.1 c.2.2 acc

/-- The filtered, scored contribution stream of `SearchIndex::search`: every
location of every term containing the query, minus `RawContent` locations. -/
def searchContribs (terms : List (Str × List SearchLocation)) (q : Str) :
    List (EntryKey × SearchLocation × ℚ) :=
  terms.flatMap fun tl =>
    if containsSub tl.1 q then
      tl.2.filterMap fun loc =>
        if loc.search_priority = SearchPriority.RawContent then none
        else
          some ((loc.section_index, loc.entry_index), loc,
            calculate_relevance_score tl.1 q * loc.search_priority.score_multiplier)
    else []

/-- Descending-score comparator of the final `sort_by`. -/
def scoreLe (a b : SearchResult) : Bool := b.relevance_score ≤ a.relevance_score

/-- Rust `SearchIndex::search` (models.rs). -/
def SearchIndex.search (idx : SearchIndex) (query : Str) : List SearchResult :=
  let query_lower := toLowerStr query
  let agg := (searchContribs idx.terms query_lower).foldl aggStep []
  (agg.map fun e => e.2.1).mergeSort scoreLe

/-- Rust `RepositoryEntry` (models.rs). -/
structure RepositoryEntry where
  title : Str
  url : Str
  description : Str
  tags : List Str
  deriving DecidableEq, Repr

/-- Rust `Section` (models.rs). -/
structure Section where
  title : Str
  entries : List RepositoryEntry
  raw_content : Str
  entry_count : Nat
  deriving DecidableEq, Repr

/-- Rust `Section::new` (models.rs). -/
def Section.new (title : Str) : Section :=
  { title := title, entries := [], raw_content := [], entry_count := 0 }

/-- Rust `ReadmeMetadata` (models.rs), with its `Default` values. -/
structure ReadmeMetadata where
  title : Str
  description : Str
  last_updated : Option Str
  total_entries : Nat
  deriving DecidableEq, Repr

def ReadmeMetadata.default : ReadmeMetadata :=
  { title := "Awesome Omarchy".toList
    description := "A curated list of awesome resources".toList
    last_updated := none
    total_entries := 0 }

/-- Rust `ReadmeContent` (models.rs). -/
structure ReadmeContent where
  sections : List Section
  search_index : SearchIndex
  metadata : ReadmeMetadata
  deriving DecidableEq, Repr

/-! ## Parser (src/parser.rs) -/

/-- Rust `ReadmeParser::new`: the `known_sections` list. -/
def known_sections : List Str :=
  ["Official Resources", "Alternative Implementations", "Themes",
   "Development Tools", "Related Projects", "Community Resources",
   "Documentation", "Tutorials", "Examples", "Libraries", "Plugins",
   "Extensions", "Integrations", "Testing", "Deployment", "Monitoring",
   "Security", "Performance", "Utilities", "Resources"].map String.toList

/-- Rust `ReadmeParser::new`: the `exclusion_patterns` list. -/
def exclusion_patterns : List Str :=
  ["Contents", "Table of Contents", "TOC", "Contributing", "License",
   "Awesome", "Badge"].map String.toList

/-- Rust `should_parse_section`'s `category_indicators` list. -/
def category_indicators : List Str :=
  ["tools", "libraries", "resources", "projects", "extensions", "plugins",
   "integrations", "frameworks", "platforms", "services", "utilities", "apps",
   "applications", "implementations", "solutions"].map String.toList

/-- Rust `ReadmeParser::should_parse_section` (parser.rs). -/
def should_parse_section (header : Str) : Bool :=
  if exclusion_patterns.any
      (fun p => containsSub (toLowerStr header) (toLowerStr p)) then false
  else if known_sections.any
      (fun s => containsSub (toLowerStr header) (toLowerStr s)) then true
  else if category_indicators.any
      (fun ind => containsSub (toLowerStr header) ind) then true
  else true

/-- Rust `ReadmeParser::is_github_link` (parser.rs). -/
def is_github_link (url : Str) : Bool :=
  strStartsWith url "https://github.com/".toList &&
  decide (4 ≤ url.count '/') &&
  !containsSub url "/issues".toList &&
  !containsSub url "/wiki".toList &&
  !containsSub url "/releases".toList

/-- Rust `ReadmeParser::split_title_description` (parser.rs). -/
def split_title_description (text : Str) : Str × Str :=
  let t := strTrim text
  match findSub t " - ".toList with
  | some pos => (strTrim (t.take pos), strTrim (t.drop (pos + 3)))
  | none =>
    match findSub t ": ".toList with
    | some pos => (strTrim (t.take pos), strTrim (t.drop (pos + 2)))
    | none => (t, [])

/-- Rust `extract_tags`' `tag_indicators` table of `(substring, tag)` pairs. -/
def tag_indicators : List (Str × Str) :=
  [("rust", "rust"), ("python", "python"), ("javascript", "javascript"),
   ("typescript", "typescript"), ("golang", "go"), ("java", "java"),
   ("c++", "cpp"), ("cli", "command-line"), ("web", "web"), ("api", "api"),
   ("tool", "tool"), ("library", "library"), ("framework", "framework"),
   ("plugin", "plugin"), ("extension", "extension")].map
    fun pt => (pt.1.toList, pt.2.toList)

/-- Rust `ReadmeParser::extract_tags` (parser.rs). -/
def extract_tags (description : Str) : List Str :=
  let dl := toLowerStr description
  (tag_indicators.filter fun pt => containsSub dl pt.1).map fun pt => pt.2

/-- Rust `ReadmeParser::extract_repository_entry` (parser.rs). -/
def extract_repository_entry (text url : Str) : RepositoryEntry :=
  let td := split_title_description text
  { title := td.1, url := url, description := td.2, tags := extract_tags td.2 }

/-- The markdown token stream consumed by `ReadmeParser::parse`: the
pulldown-cmark events whose arms the parser distinguishes (the wildcard arm is
`other`). -/
inductive MdEvent
  | headingStart (level : Nat)
  | headingEnd
  | linkStart (dest : Str)
  | linkEnd
  | text (s : Str)
  | code (s : Str)
  | listStart
  | itemStart
  | itemEnd
  | softBreak
  | hardBreak
  | other
  deriving DecidableEq, Repr

/-- The mutable locals of `ReadmeParser::parse`, threaded explicitly. -/
structure ParseState where
  sections : List Section
  current_section : Option Section
  current_text : Str
  is_in_header : Bool
  current_header_level : Nat
  header_text : Str
  link_url : Str
  is_in_list_item : Bool
  current_item_text : Str
  metadata_title : Str
  title_extracted : Bool
  deriving DecidableEq, Repr

def initState : ParseState :=
  { sections := []
    current_section := none
    current_text := []
    is_in_header := false
    current_header_level := 0
    header_text := []
    link_url := []
    is_in_list_item := false
    current_item_text := []
    metadata_title := ReadmeMetadata.default.title
    title_extracted := false }

/-- The `Event::Text`/`Event::Code` arm of the parse loop (both push the same
way). -/
def textStep (s : ParseState) (t : Str) : ParseState :=
  if s.is_in_header then { s with header_text := s.header_text ++ t }
  else
    let s1 := { s with current_text := s.current_text ++ t }
    let s2 := if s1.is_in_list_item then
        { s1 with current_item_text := s1.current_item_text ++ t } else s1
    match s2.current_section with
    | some sec =>
        { s2 with current_section := some { sec with raw_content := sec.raw_content ++ t } }
    | none => s2

/-- The `Event::SoftBreak | Event::HardBreak` arm of the parse loop. -/
def breakStep (s : ParseState) : ParseState :=
  if s.is_in_header then s
  else
    let s1 := { s with current_text := s.current_text ++ ['\n'] }
    let s2 := if s1.is_in_list_item then
        { s1 with current_item_text := s1.current_item_text ++ ['\n'] } else s1
    match s2.current_section with
    | some sec =>
        { s2 with current_section := some { sec with raw_content := sec.raw_content ++ ['\n'] } }
    | none => s2

/-- The `Event::End(TagEnd::Heading)` arm of the parse loop. -/
def headingEndStep (s : ParseState) : ParseState :=
  if s.is_in_header then
    let header := strTrim s.header_text
    let s1 := if !s.title_extracted && s.current_header_level = 1 then
        { s with metadata_title := header, title_extracted := true } else s
    let s2 := if 2 ≤ s1.current_header_level && should_parse_section header then
        { s1 with
          sections := s1.sections ++ s1.current_section.toList
          current_section := some (Section.new header)
          current_text := [] }
      else s1
    { s2 with is_in_header := false }
  else s

/-- The `Event::End(TagEnd::Item)` arm of the parse loop. -/
def itemEndStep (s : ParseState) : ParseState :=
  if s.is_in_header then s
  else
    let s1 := { s with current_text := s.current_text ++ ['\n'] }
    let s2 := match s1.current_section with
      | some sec =>
          { s1 with current_section := some { sec with raw_content := sec.raw_content ++ ['\n'] } }
      | none => s1
    let s3 :=
      if s2.is_in_list_item && s2.link_url ≠ [] && strTrim s2.current_item_text ≠ [] then
        match s2.current_section with
        | some sec =>
          if is_github_link s2.link_url then
            let entry := extract_repository_entry s2.current_item_text s2.link_url
            let sec1 := { sec with entries := sec.entries ++ [entry]
                                   entry_count := sec.entry_count + 1 }
            { s2 with current_section := some sec1 }
          else s2
        | none => s2
      else s2
    { s3 with is_in_list_item := false, current_item_text := [], link_url := [] }

/-- One iteration of the event loop of `ReadmeParser::parse`. -/
def parseStep (s : ParseState) (e : MdEvent) : ParseState :=
  match e with
  | .headingStart level =>
      { s with is_in_header := true, current_header_level := level, header_text := [] }
  | .headingEnd => headingEndStep s
  | .linkStart dest => { s with link_url := dest }
  | .linkEnd => s
  | .text t => textStep s t
  | .code c => textStep s c
  | .listStart =>
      if !s.is_in_header && strTrim s.current_text ≠ [] then
        { s with current_text := s.current_text ++ ['\n'] } else s
  | .itemStart =>
      if !s.is_in_header then
        { s with current_text := s.current_text ++ "• ".toList
                 is_in_list_item := true
                 current_item_text := [] }
      else s
  | .itemEnd => itemEndStep s
  | .softBreak => breakStep s
  | .hardBreak => breakStep s
  | .other => s

/-- Run the whole event loop. -/
def runExtract (events : List MdEvent) : ParseState :=
  events.foldl parseStep initState

/-- The sections produced by the loop: pushed ones plus the final
`current_section` push. -/
def finalSections (st : ParseState) : List Section :=
  st.sections ++ st.current_section.toList

/-- Rust `ReadmeParser::index_text`'s word cleaner: keep alphanumeric/whitespace
characters, trim, lowercase. -/
def cleanWord (w : Str) : Str :=
  toLowerStr (strTrim (w.filter fun c => c.isAlphanum || c.isWhitespace))

/-- The token stream of `ReadmeParser::index_text`: split on whitespace, drop
raw words of length ≤ 2, clean, drop cleaned words that are empty or of
length ≤ 2. -/
def indexTokens (text : Str) : List Str :=
  (((splitWs text).filter fun w => 2 < w.length).map cleanWord).filter
    fun w => w ≠ [] && 2 < w.length

/-- The `SearchLocation` every registration of `index_text` carries. -/
def mkLocation (text : Str) (section_idx : Nat) (entry_idx : Option Nat)
    (priority : SearchPriority) (github_url : Option Str) : SearchLocation :=
  { section_index := section_idx
    entry_index := entry_idx
    line_content := text
    start_pos := 0
    end_pos := text.length
    search_priority := priority
    github_url := github_url }

/-- Rust `ReadmeParser::index_text` (parser.rs). -/
def index_text (text : Str) (section_idx : Nat) (entry_idx : Option Nat)
    (priority : SearchPriority) (github_url : Option Str)
    (search_index : SearchIndex) : SearchIndex :=
  (indexTokens text).foldl
    (fun idx w => idx.add_term w (mkLocation text section_idx entry_idx priority github_url))
    search_index

/-- Rust `ReadmeParser::build_search_index` (parser.rs): only entry titles and
non-empty entry descriptions are indexed. -/
def build_search_index (sections : List Section) : SearchIndex :=
  sections.enum.foldl
    (fun idx se =>
      se.2.entries.enum.foldl
        (fun idx ee =>
          let idx1 := index_text ee.2.title se.1 (some ee.1)
            SearchPriority.RepositoryName (some ee.2.url) idx
          if ee.2.description ≠ [] then
            index_text ee.2.description se.1 (some ee.1)
              SearchPriority.Description (some ee.2.url) idx1
          else idx1)
        idx)
    default

/-- Rust `ParseError`: the two failure cases of `ReadmeParser::parse`. -/
inductive ParseError
  | EmptyInput
  | NoSectionsFound
  deriving DecidableEq, Repr

/-- Rust `ReadmeParser::parse` (parser.rs), over the markdown source together with
the event stream its external tokenizer produces for it. -/
def parse (markdown : Str) (events : List MdEvent) : Except ParseError ReadmeContent :=
  if strTrim markdown = [] then .error .EmptyInput
  else
    let st := runExtract events
    let sections := finalSections st
    let metadata : ReadmeMetadata :=
      { ReadmeMetadata.default with
          title := st.metadata_title
          total_entries := (sections.map Section.entry_count).sum }
    let search_index := build_search_index sections
    if sections = [] then .error .NoSectionsFound
    else .ok { sections := sections, search_index := search_index, metadata := metadata }

example : strStartsWith "abc".toList "ab".toList = true := by decide
example : containsSub "hello world".toList "lo w".toList = true := by decide
example : containsSub "hello".toList "He".toList = false := by decide
example : findSub "a - b - c".toList " - ".toList = some 1 := by decide
example : strTrim "  ab c  ".toList = "ab c".toList := by decide
example : splitWs " foo  bar ".toList = ["foo".toList, "bar".toList] := by decide
example : toLowerStr "AbC".toList = "abc".toList := by decide

/-! ## String helper lemmas -/

theorem strStartsWith_nil_right (s : Str) : strStartsWith s [] = true := by
  cases s <;> rfl

theorem containsSub_nil_right (hay : Str) : containsSub hay [] = true := by
  cases hay <;> simp [containsSub, strStartsWith_nil_right]

/-- Occurrence of `pat` in `hay` at position `p`. -/
def occursAt (hay pat : Str) (p : Nat) : Prop :=
  strStartsWith (hay.drop p) pat = true

theorem occursAt_zero {hay pat : Str} :
    occursAt hay pat 0 ↔ strStartsWith hay pat = true := by
  simp [occursAt]

theorem occursAt_cons_succ {c : Char} {t pat : Str} {p : Nat} :
    occursAt (c :: t) pat (p + 1) ↔ occursAt t pat p := by
  simp [occursAt]

/-- Characterisation of `findSub`: it returns exactly the first occurrence
position, and `none` exactly when there is no occurrence. -/
theorem findSub_spec (hay pat : Str) :
    (∀ p, findSub hay pat = some p →
      occursAt hay pat p ∧ ∀ q, q < p → ¬ occursAt hay pat q) ∧
    (findSub hay pat = none → ∀ p, ¬ occursAt hay pat p) := by
  induction hay with
  | nil =>
    constructor
    · intro p hp
      unfold findSub at hp
      split at hp
      · next h =>
        cases hp
        exact ⟨occursAt_zero.mpr h, fun q hq => absurd hq (Nat.not_lt_zero q)⟩
      · simp at hp
    · intro hn p
      unfold findSub at hn
      split at hn
      · simp at hn
      · next h => simpa [occursAt] using h
  | cons c t ih =>
    constructor
    · intro p hp
      unfold findSub at hp
      split at hp
      · next h =>
        cases hp
        exact ⟨occursAt_zero.mpr h, fun q hq => absurd hq (Nat.not_lt_zero q)⟩
      · next h =>
        simp only [Option.map_eq_some'] at hp
        obtain ⟨q, hq, rfl⟩ := hp
        obtain ⟨h1, h2⟩ := ih.1 q hq
        refine ⟨occursAt_cons_succ.mpr h1, ?_⟩
        intro r hr
        match r with
        | 0 => simpa [occursAt_zero] using h
        | r + 1 =>
          rw [occursAt_cons_succ]
          exact h2 r (by omega)
    · intro hn p
      unfold findSub at hn
      split at hn
      · simp at hn
      · next h =>
        simp only [Option.map_eq_none'] at hn
        match p with
        | 0 => simpa [occursAt_zero] using h
        | p + 1 =>
          rw [occursAt_cons_succ]
          exact ih.2 hn p

theorem containsSub_iff_exists_occursAt (hay pat : Str) :
    containsSub hay pat = true ↔ ∃ p, occursAt hay pat p := by
  induction hay with
  | nil =>
    unfold containsSub
    constructor
    · intro h
      simp only [Bool.or_eq_true] at h
      rcases h with h | h
      · exact ⟨0, occursAt_zero.mpr h⟩
      · simp at h
    · rintro ⟨p, hp⟩
      simp only [Bool.or_eq_true]
      left
      simpa [occursAt] using hp
  | cons c t ih =>
    unfold containsSub
    constructor
    · intro h
      simp only [Bool.or_eq_true] at h
      rcases h with h | h
      · exact ⟨0, occursAt_zero.mpr h⟩
      · obtain ⟨p, hp⟩ := ih.mp h
        exact ⟨p + 1, occursAt_cons_succ.mpr hp⟩
    · rintro ⟨p, hp⟩
      simp only [Bool.or_eq_true]
      match p with
      | 0 => exact Or.inl (occursAt_zero.mp hp)
      | p + 1 => exact Or.inr (ih.mpr ⟨p, occursAt_cons_succ.mp hp⟩)

theorem containsSub_false_findSub_none {hay pat : Str}
    (h : containsSub hay pat = false) : findSub hay pat = none := by
  cases hf : findSub hay pat with
  | none => rfl
  | some p =>
    have := (findSub_spec hay pat).1 p hf
    have hc : containsSub hay pat = true :=
      (containsSub_iff_exists_occursAt hay pat).mpr ⟨p, this.1⟩
    rw [h] at hc
    cases hc

theorem should_parse_section_iff (h : Str) :
    should_parse_section h = true ↔
      ∀ p ∈ exclusion_patterns, containsSub (toLowerStr h) (toLowerStr p) = false := by
  constructor
  · intro hs p hp
    by_contra hc
    rw [Bool.not_eq_false] at hc
    have hany : exclusion_patterns.any
        (fun p => containsSub (toLowerStr h) (toLowerStr p)) = true :=
      List.any_eq_true.mpr ⟨p, hp, hc⟩
    simp [should_parse_section, hany] at hs
  · intro hall
    have hany : exclusion_patterns.any
        (fun p => containsSub (toLowerStr h) (toLowerStr p)) = false := by
      rw [List.any_eq_false]
      intro p hp
      simp [hall p hp]
    unfold should_parse_section
    rw [hany]
    simp only [Bool.false_eq_true, if_false]
    split
    · rfl
    · split <;> rfl

/-! ## Claim theorems: link filter and entry splitter -/

/-- C4: for every string url, `is_github_repo_link(url)` is true iff url starts
with "https://github.com/", contains at least 4 slash characters, and contains
none of "/issues", "/wiki", "/releases" as substrings; in particular it is true
for "https://github.com/user/repo" and false for
"https://github.com/user/repo/issues/3". -/
theorem is_github_repo_link_characterization :
    (∀ url : Str, is_github_link url = true ↔
      (strStartsWith url "https://github.com/".toList = true ∧
       4 ≤ url.count '/' ∧
       containsSub url "/issues".toList = false ∧
       containsSub url "/wiki".toList = false ∧
       containsSub url "/releases".toList = false)) ∧
    is_github_link "https://github.com/user/repo".toList = true ∧
    is_github_link "https://github.com/user/repo/issues/3".toList = false := by
  refine ⟨?_, by decide, by decide⟩
  intro url
  simp [is_github_link, Bool.and_eq_true, decide_eq_true_iff,
    Bool.not_eq_true', and_assoc]

/-- C5: the entry splitter is total over any string input: after trimming, if
the text contains " - " it is split at the first occurrence (both sides
trimmed); else if it contains ": " it is split at the first occurrence the same
way; else the whole trimmed text is the title and the description is empty.
The concrete example of the spec holds. -/
theorem split_title_description_characterization :
    (∀ text : Str,
      (containsSub (strTrim text) " - ".toList = true →
        ∃ p, occursAt (strTrim text) " - ".toList p ∧
          (∀ q, q < p → ¬ occursAt (strTrim text) " - ".toList q) ∧
          split_title_description text =
            (strTrim ((strTrim text).take p), strTrim ((strTrim text).drop (p + 3)))) ∧
      (containsSub (strTrim text) " - ".toList = false →
        containsSub (strTrim text) ": ".toList = true →
        ∃ p, occursAt (strTrim text) ": ".toList p ∧
          (∀ q, q < p → ¬ occursAt (strTrim text) ": ".toList q) ∧
          split_title_description text =
            (strTrim ((strTrim text).take p), strTrim ((strTrim text).drop (p + 2)))) ∧
      (containsSub (strTrim text) " - ".toList = false →
        containsSub (strTrim text) ": ".toList = false →
        split_title_description text = (strTrim text, []))) ∧
    split_title_description
        "Awesome Tool - A comprehensive tool for doing awesome things".toList =
      ("Awesome Tool".toList,
       "A comprehensive tool for doing awesome things".toList) := by
  constructor
  · intro text
    refine ⟨?_, ?_, ?_⟩
    · intro hc
      obtain ⟨p, hp⟩ := (containsSub_iff_exists_occursAt _ _).mp hc
      cases hf : findSub (strTrim text) " - ".toList with
      | none => exact absurd hp ((findSub_spec _ _).2 hf p)
      | some q =>
        obtain ⟨h1, h2⟩ := (findSub_spec _ _).1 q hf
        refine ⟨q, h1, h2, ?_⟩
        simp only [split_title_description]
        rw [hf]
    · intro hc1 hc2
      have hf1 : findSub (strTrim text) " - ".toList = none :=
        containsSub_false_findSub_none hc1
      obtain ⟨p, hp⟩ := (containsSub_iff_exists_occursAt _ _).mp hc2
      cases hf : findSub (strTrim text) ": ".toList with
      | none => exact absurd hp ((findSub_spec _ _).2 hf p)
      | some q =>
        obtain ⟨h1, h2⟩ := (findSub_spec _ _).1 q hf
        refine ⟨q, h1, h2, ?_⟩
        simp only [split_title_description]
        rw [hf1, hf]
    · intro hc1 hc2
      have hf1 := containsSub_false_findSub_none hc1
      have hf2 := containsSub_false_findSub_none hc2
      simp only [split_title_description]
      rw [hf1, hf2]
  · decide

/-- Witness for C5: the " - " branch of the characterisation applied to a
concrete input. -/
theorem split_title_description_characterization_witness :
    ∃ p, occursAt (strTrim "a - b".toList) " - ".toList p ∧
      (∀ q, q < p → ¬ occursAt (strTrim "a - b".toList) " - ".toList q) ∧
      split_title_description "a - b".toList =
        (strTrim ((strTrim "a - b".toList).take p),
         strTrim ((strTrim "a - b".toList).drop (p + 3))) :=
  (split_title_description_characterization.1 "a - b".toList).1 (by decide)

/-! ## Extractor state invariant -/

/-- Invariant of a section held by the extractor: the entry counter tracks the
entry list, and the title passed the section filter. -/
def sectionOK (sec : Section) : Prop :=
  sec.entry_count = sec.entries.length ∧ should_parse_section sec.title = true

/-- Invariant of the extractor state: every pushed section and the open
section (if any) satisfy `sectionOK`. -/
def stateOK (s : ParseState) : Prop :=
  (∀ sec ∈ s.sections, sectionOK sec) ∧
  (∀ sec ∈ s.current_section.toList, sectionOK sec)

theorem stateOK_textStep {s : ParseState} (h : stateOK s) (t : Str) :
    stateOK (textStep s t) := by
  obtain ⟨h1, h2⟩ := h
  cases hcs : s.current_section with
  | none =>
    by_cases hih : s.is_in_header <;> by_cases hil : s.is_in_list_item <;>
      simp_all [textStep, stateOK, sectionOK, hcs]
  | some sec =>
    by_cases hih : s.is_in_header <;> by_cases hil : s.is_in_list_item <;>
      simp_all [textStep, stateOK, sectionOK, hcs]

theorem stateOK_breakStep {s : ParseState} (h : stateOK s) :
    stateOK (breakStep s) := by
  obtain ⟨h1, h2⟩ := h
  cases hcs : s.current_section with
  | none =>
    by_cases hih : s.is_in_header <;> by_cases hil : s.is_in_list_item <;>
      simp_all [breakStep, stateOK, sectionOK, hcs]
  | some sec =>
    by_cases hih : s.is_in_header <;> by_cases hil : s.is_in_list_item <;>
      simp_all [breakStep, stateOK, sectionOK, hcs]

theorem stateOK_headingEndStep {s : ParseState} (h : stateOK s) :
    stateOK (headingEndStep s) := by
  obtain ⟨h1, h2⟩ := h
  obtain ⟨sse, scs, sct, sih, slv, sht, slu, sil, sit, smt, ste⟩ := s
  dsimp only at h1 h2
  cases sih with
  | false => exact ⟨h1, h2⟩
  | true =>
    cases ste <;> by_cases hlv1 : slv = 1 <;>
      by_cases hsp : should_parse_section (strTrim sht) = true <;>
      by_cases hlv2 : 2 ≤ slv <;>
      cases scs <;>
      simp_all [headingEndStep, stateOK, sectionOK, Section.new] <;>
      first
      | (rintro x (hx | rfl) <;> first | exact h1 x hx | exact h2)
      | (rw [if_neg (by omega : ¬ (2:ℕ) ≤ slv)]
         simp_all)

theorem stateOK_itemEndStep {s : ParseState} (h : stateOK s) :
    stateOK (itemEndStep s) := by
  obtain ⟨h1, h2⟩ := h
  by_cases hih : s.is_in_header <;>
    by_cases hil : s.is_in_list_item <;>
    by_cases hlu : s.link_url = [] <;>
    by_cases hit : strTrim s.current_item_text = [] <;>
    by_cases hgh : is_github_link s.link_url = true <;>
    cases hcs : s.current_section <;>
    simp_all [itemEndStep, stateOK, sectionOK, hcs]

theorem stateOK_parseStep {s : ParseState} (h : stateOK s) (e : MdEvent) :
    stateOK (parseStep s e) := by
  obtain ⟨h1, h2⟩ := h
  cases e with
  | headingStart level => exact ⟨h1, h2⟩
  | headingEnd => exact stateOK_headingEndStep ⟨h1, h2⟩
  | linkStart dest => exact ⟨h1, h2⟩
  | linkEnd => exact ⟨h1, h2⟩
  | text t => exact stateOK_textStep ⟨h1, h2⟩ t
  | code c => exact stateOK_textStep ⟨h1, h2⟩ c
  | listStart =>
    by_cases hih : s.is_in_header <;> by_cases hct : strTrim s.current_text = [] <;>
      simp_all [parseStep, stateOK, sectionOK]
  | itemStart =>
    by_cases hih : s.is_in_header <;> simp_all [parseStep, stateOK, sectionOK]
  | itemEnd => exact stateOK_itemEndStep ⟨h1, h2⟩
  | softBreak => exact stateOK_breakStep ⟨h1, h2⟩
  | hardBreak => exact stateOK_breakStep ⟨h1, h2⟩
  | other => exact ⟨h1, h2⟩

theorem stateOK_runExtract (events : List MdEvent) : stateOK (runExtract events) := by
  have hinit : stateOK initState := by
    constructor <;> simp [initState]
  rw [runExtract]
  generalize initState = s0 at hinit ⊢
  induction events generalizing s0 with
  | nil => exact hinit
  | cons e rest ih => exact ih _ (stateOK_parseStep hinit e)

/-- Successful parses return exactly the extracted sections, and the metadata
total is computed as the sum of the section counters. -/
theorem parse_ok_inv {md : Str} {evs : List MdEvent} {c : ReadmeContent}
    (h : parse md evs = .ok c) :
    c.sections = finalSections (runExtract evs) ∧
    c.metadata.total_entries = (c.sections.map Section.entry_count).sum := by
  unfold parse at h
  split at h
  · cases h
  · dsimp only at h
    split at h
    · cases h
    · cases h
      exact ⟨rfl, rfl⟩

/-! ## Claim theorems: parse errors and catalog invariants -/

/-- C2: parse fails iff the input is blank (EmptyInput) or extraction yields
zero sections (NoSectionsFound); every other input yields a catalog. -/
theorem parse_failure_characterization (md : Str) (evs : List MdEvent) :
    (parse md evs = .error .EmptyInput ↔ strTrim md = []) ∧
    (parse md evs = .error .NoSectionsFound ↔
      strTrim md ≠ [] ∧ finalSections (runExtract evs) = []) ∧
    (strTrim md ≠ [] → finalSections (runExtract evs) ≠ [] →
      ∃ c, parse md evs = .ok c) := by
  unfold parse
  by_cases hmd : strTrim md = []
  · simp [hmd]
  · by_cases hsec : finalSections (runExtract evs) = [] <;>
      simp [hmd, hsec]

/-- Concrete markdown source used by witnesses. -/
def witMd : Str := "## Tools".toList

/-- Concrete event stream used by witnesses: a single level-2 heading. -/
def witEvents : List MdEvent :=
  [.headingStart 2, .text "Tools".toList, .headingEnd]

/-- The catalog `parse witMd witEvents` produces. -/
def witCatalog : ReadmeContent :=
  { sections := [{ title := "Tools".toList, entries := [], raw_content := [],
                   entry_count := 0 }]
    search_index := { terms := [], total_terms := 0 }
    metadata := ReadmeMetadata.default }

theorem witParse_eq : parse witMd witEvents = .ok witCatalog := by rfl

/-- Witness for C2: a non-blank input whose extraction yields a section
parses successfully. -/
theorem parse_failure_characterization_witness :
    ∃ c, parse witMd witEvents = .ok c :=
  (parse_failure_characterization witMd witEvents).2.2 (by decide) (by decide)

/-- C3: in every catalog returned by parse, every section satisfies
entry_count = entries.length, and the metadata total is the sum of the
per-section counts. -/
theorem parse_counts {md : Str} {evs : List MdEvent} {c : ReadmeContent}
    (h : parse md evs = .ok c) :
    (∀ sec ∈ c.sections, sec.entry_count = sec.entries.length) ∧
    c.metadata.total_entries = (c.sections.map Section.entry_count).sum := by
  obtain ⟨hsec, htot⟩ := parse_ok_inv h
  refine ⟨?_, htot⟩
  intro sec hmem
  rw [hsec] at hmem
  unfold finalSections at hmem
  have hok := stateOK_runExtract evs
  rcases List.mem_append.mp hmem with hx | hx
  · exact (hok.1 sec hx).1
  · exact (hok.2 sec hx).1

/-- Witness for C3: the count invariants evaluated on a concrete parse. -/
theorem parse_counts_witness :
    (∀ sec ∈ witCatalog.sections, sec.entry_count = sec.entries.length) ∧
    witCatalog.metadata.total_entries =
      (witCatalog.sections.map Section.entry_count).sum :=
  parse_counts witParse_eq

/-- C10: no section of a successful parse has a title that case-insensitively
contains an exclusion pattern; in particular no section title contains
"awesome" case-insensitively, and a heading whose trimmed text contains
"awesome" leaves the pushed sections and the open section untouched. -/
theorem parse_sections_not_excluded {md : Str} {evs : List MdEvent}
    {c : ReadmeContent} (h : parse md evs = .ok c) :
    (∀ sec ∈ c.sections, ∀ p ∈ exclusion_patterns,
      containsSub (toLowerStr sec.title) (toLowerStr p) = false) ∧
    (∀ sec ∈ c.sections,
      containsSub (toLowerStr sec.title) ("awesome".toList) = false) ∧
    (∀ s : ParseState, s.is_in_header = true →
      containsSub (toLowerStr (strTrim s.header_text)) ("awesome".toList) = true →
      (parseStep s .headingEnd).sections = s.sections ∧
      (parseStep s .headingEnd).current_section = s.current_section) := by
  obtain ⟨hsec, -⟩ := parse_ok_inv h
  have hok := stateOK_runExtract evs
  have hall : ∀ sec ∈ c.sections, should_parse_section sec.title = true := by
    intro sec hmem
    rw [hsec] at hmem
    unfold finalSections at hmem
    rcases List.mem_append.mp hmem with hx | hx
    · exact (hok.1 sec hx).2
    · exact (hok.2 sec hx).2
  refine ⟨?_, ?_, ?_⟩
  · intro sec hmem p hp
    exact (should_parse_section_iff sec.title).mp (hall sec hmem) p hp
  · intro sec hmem
    have hx := (should_parse_section_iff sec.title).mp (hall sec hmem)
      ("Awesome".toList) (by decide)
    rw [show toLowerStr ("Awesome".toList) = "awesome".toList from by decide] at hx
    exact hx
  · intro s hih hc
    have hsp : should_parse_section (strTrim s.header_text) = false := by
      by_contra hne
      rw [Bool.not_eq_false] at hne
      have hx := (should_parse_section_iff _).mp hne ("Awesome".toList) (by decide)
      rw [show toLowerStr ("Awesome".toList) = "awesome".toList from by decide] at hx
      rw [hx] at hc
      cases hc
    obtain ⟨sse, scs, sct, sih, slv, sht, slu, sil, sit, smt, ste⟩ := s
    dsimp only at hih hsp ⊢
    subst hih
    cases ste <;> by_cases hlv1 : slv = 1 <;>
      simp_all [parseStep, headingEndStep]

/-- State in which an excluded heading is about to end, used by the C10
witness. -/
def witHeadState : ParseState :=
  { initState with is_in_header := true
                   header_text := "Awesome List".toList }

/-- Witness for C10: the guarantees evaluated on a concrete parse, and the
heading no-op property at a concrete state. -/
theorem parse_sections_not_excluded_witness :
    containsSub (toLowerStr ("Tools".toList)) (toLowerStr ("Awesome".toList)) = false ∧
    (parseStep witHeadState .headingEnd).sections = [] :=
  ⟨(parse_sections_not_excluded witParse_eq).1
      { title := "Tools".toList, entries := [], raw_content := [], entry_count := 0 }
      (by decide) ("Awesome".toList) (by decide),
   by
    rw [((parse_sections_not_excluded witParse_eq).2.2
      witHeadState (by decide) (by decide)).1]
    rfl⟩

/-! ## Index builder: registrations and bucket accounting -/

theorem char_toNat_ofNat {n : Nat} (h : n.isValidChar) :
    (Char.ofNat n).toNat = n := by
  unfold Char.ofNat
  rw [dif_pos h]
  unfold Char.ofNatAux Char.toNat
  simp [UInt32.toNat, BitVec.ofNatLt]

theorem char_toLower_idem (c : Char) : (c.toLower).toLower = c.toLower := by
  simp only [Char.toLower]
  by_cases h : c.toNat ≥ 65 ∧ c.toNat ≤ 90
  · rw [if_pos h]
    have hv : Nat.isValidChar (c.toNat + 32) := by
      left
      omega
    have ht : (Char.ofNat (c.toNat + 32)).toNat = c.toNat + 32 :=
      char_toNat_ofNat hv
    rw [if_neg]
    rw [ht]
    omega
  · rw [if_neg h, if_neg h]

theorem toLowerStr_idem (s : Str) : toLowerStr (toLowerStr s) = toLowerStr s := by
  unfold toLowerStr
  rw [List.map_map]
  exact List.map_congr_left fun a _ => char_toLower_idem a

theorem indexTokens_lower_fix {text w : Str} (h : w ∈ indexTokens text) :
    toLowerStr w = w := by
  unfold indexTokens at h
  obtain ⟨hmem, -⟩ := List.mem_filter.mp h
  obtain ⟨v, hv, rfl⟩ := List.mem_map.mp hmem
  unfold cleanWord
  exact toLowerStr_idem _

/-- All (term, location) pairs stored in a bucket list. -/
def pairsOf (terms : List (Str × List SearchLocation)) : List (Str × SearchLocation) :=
  terms.flatMap fun tb => tb.2.map fun loc => (tb.1, loc)

/-- Sum of the bucket lengths. -/
def bucketSum (terms : List (Str × List SearchLocation)) : Nat :=
  (terms.map fun tb => tb.2.length).sum

theorem bucketSum_addToBucket (k : Str) (loc : SearchLocation)
    (terms : List (Str × List SearchLocation)) :
    bucketSum (addToBucket k loc terms) = bucketSum terms + 1 := by
  induction terms with
  | nil => simp [addToBucket, bucketSum]
  | cons tb rest ih =>
    obtain ⟨t, b⟩ := tb
    unfold addToBucket
    by_cases h : t = k
    · simp only [h, if_true, bucketSum, List.map_cons, List.sum_cons,
        List.length_append, List.length_singleton]
      omega
    · simp only [h, if_false, bucketSum, List.map_cons, List.sum_cons] at ih ⊢
      omega

theorem pairsOf_cons (tb : Str × List SearchLocation)
    (rest : List (Str × List SearchLocation)) :
    pairsOf (tb :: rest) = (tb.2.map fun loc => (tb.1, loc)) ++ pairsOf rest := rfl

theorem mem_pairsOf_addToBucket {p : Str × SearchLocation} (k : Str)
    (loc : SearchLocation) (terms : List (Str × List SearchLocation)) :
    p ∈ pairsOf (addToBucket k loc terms) ↔ p ∈ pairsOf terms ∨ p = (k, loc) := by
  induction terms with
  | nil => simp [addToBucket, pairsOf]
  | cons tb rest ih =>
    obtain ⟨t, b⟩ := tb
    by_cases h : t = k
    · subst h
      have he : addToBucket t loc ((t, b) :: rest) = (t, b ++ [loc]) :: rest := by
        simp [addToBucket]
      rw [he, pairsOf_cons, pairsOf_cons]
      simp only [List.map_append, List.map_cons, List.map_nil, List.mem_append,
        List.mem_singleton]
      tauto
    · have he : addToBucket k loc ((t, b) :: rest) = (t, b) :: addToBucket k loc rest := by
        simp [addToBucket, h]
      rw [he, pairsOf_cons, pairsOf_cons]
      simp only [List.mem_append]
      rw [ih]
      tauto

/-- One `add_term` call in the shape used by the builder. -/
def addPair (idx : SearchIndex) (p : Str × SearchLocation) : SearchIndex :=
  idx.add_term p.1 p.2

theorem foldl_addPair_total (l : List (Str × SearchLocation)) (idx : SearchIndex) :
    (l.foldl addPair idx).total_terms = idx.total_terms + l.length := by
  induction l generalizing idx with
  | nil => rfl
  | cons p rest ih =>
    rw [List.foldl_cons, ih]
    simp only [addPair, SearchIndex.add_term, List.length_cons]
    omega

theorem foldl_addPair_bucketSum (l : List (Str × SearchLocation)) (idx : SearchIndex) :
    bucketSum (l.foldl addPair idx).terms = bucketSum idx.terms + l.length := by
  induction l generalizing idx with
  | nil => rfl
  | cons p rest ih =>
    rw [List.foldl_cons, ih]
    simp only [addPair, SearchIndex.add_term, List.length_cons, bucketSum_addToBucket]
    omega

theorem mem_pairsOf_foldl_addPair {p : Str × SearchLocation}
    (l : List (Str × SearchLocation)) (idx : SearchIndex) :
    p ∈ pairsOf (l.foldl addPair idx).terms ↔
      p ∈ pairsOf idx.terms ∨ ∃ q ∈ l, p = (toLowerStr q.1, q.2) := by
  induction l generalizing idx with
  | nil =>
    constructor
    · exact fun hp => Or.inl hp
    · rintro (hp | ⟨q, hq, -⟩)
      · exact hp
      · exact absurd hq (List.not_mem_nil q)
  | cons q rest ih =>
    rw [List.foldl_cons, ih]
    simp only [addPair, SearchIndex.add_term]
    rw [mem_pairsOf_addToBucket]
    simp only [List.mem_cons]
    constructor
    · rintro ((hp | hp) | ⟨r, hr, hpr⟩)
      · exact Or.inl hp
      · exact Or.inr ⟨q, Or.inl rfl, hp⟩
      · exact Or.inr ⟨r, Or.inr hr, hpr⟩
    · rintro (hp | ⟨r, (rfl | hr), hpr⟩)
      · exact Or.inl (Or.inl hp)
      · exact Or.inl (Or.inr hpr)
      · exact Or.inr ⟨r, hr, hpr⟩

/-- The registrations `build_search_index` performs for one entry, in order. -/
def entryRegs (si ei : Nat) (e : RepositoryEntry) : List (Str × SearchLocation) :=
  ((indexTokens e.title).map fun w =>
      (w, mkLocation e.title si (some ei) SearchPriority.RepositoryName (some e.url))) ++
    if e.description ≠ [] then
      (indexTokens e.description).map fun w =>
        (w, mkLocation e.description si (some ei) SearchPriority.Description (some e.url))
    else []

/-- All registrations of the builder over a section list, in order. -/
def allRegs (sections : List Section) : List (Str × SearchLocation) :=
  sections.enum.flatMap fun se =>
    se.2.entries.enum.flatMap fun ee => entryRegs se.1 ee.1 ee.2

theorem foldl_flatMap {α β γ : Type} (g : α → List β) (f : γ → β → γ)
    (l : List α) (init : γ) :
    (l.flatMap g).foldl f init = l.foldl (fun acc x => (g x).foldl f acc) init := by
  induction l generalizing init with
  | nil => rfl
  | cons x rest ih => simp [List.flatMap_cons, List.foldl_append, ih]

theorem index_text_eq_foldl (text : Str) (si : Nat) (ei : Option Nat)
    (pr : SearchPriority) (url : Option Str) (idx : SearchIndex) :
    index_text text si ei pr url idx =
      ((indexTokens text).map fun w => (w, mkLocation text si ei pr url)).foldl
        addPair idx := by
  rw [List.foldl_map]
  rfl

theorem entry_foldl_eq (si : Nat) (ee : Nat × RepositoryEntry) (idx : SearchIndex) :
    (let idx1 := index_text ee.2.title si (some ee.1)
        SearchPriority.RepositoryName (some ee.2.url) idx
     if ee.2.description ≠ [] then
       index_text ee.2.description si (some ee.1)
         SearchPriority.Description (some ee.2.url) idx1
     else idx1) = (entryRegs si ee.1 ee.2).foldl addPair idx := by
  unfold entryRegs
  rw [List.foldl_append]
  by_cases hd : ee.2.description = []
  · simp only [hd, ne_eq, not_true_eq_false, if_false, List.foldl_nil]
    rw [index_text_eq_foldl]
  · simp only [hd, ne_eq, not_false_eq_true, if_true]
    rw [index_text_eq_foldl, index_text_eq_foldl]

theorem build_search_index_eq (sections : List Section) :
    build_search_index sections = (allRegs sections).foldl addPair default := by
  unfold build_search_index allRegs
  rw [foldl_flatMap]
  have hsec : ∀ (l : List (Nat × Section)) (idx : SearchIndex),
      l.foldl
        (fun idx se =>
          se.2.entries.enum.foldl
            (fun idx ee =>
              let idx1 := index_text ee.2.title se.1 (some ee.1)
                SearchPriority.RepositoryName (some ee.2.url) idx
              if ee.2.description ≠ [] then
                index_text ee.2.description se.1 (some ee.1)
                  SearchPriority.Description (some ee.2.url) idx1
              else idx1)
            idx)
        idx =
      l.foldl
        (fun acc se =>
          (se.2.entries.enum.flatMap fun ee => entryRegs se.1 ee.1 ee.2).foldl
            addPair acc)
        idx := by
    intro l idx
    induction l generalizing idx with
    | nil => rfl
    | cons se rest ih =>
      rw [List.foldl_cons, List.foldl_cons, ih]
      congr 1
      rw [foldl_flatMap]
      have hent : ∀ (el : List (Nat × RepositoryEntry)) (jdx : SearchIndex),
          el.foldl
            (fun idx ee =>
              let idx1 := index_text ee.2.title se.1 (some ee.1)
                SearchPriority.RepositoryName (some ee.2.url) idx
              if ee.2.description ≠ [] then
                index_text ee.2.description se.1 (some ee.1)
                  SearchPriority.Description (some ee.2.url) idx1
              else idx1)
            jdx =
          el.foldl (fun acc ee => (entryRegs se.1 ee.1 ee.2).foldl addPair acc) jdx := by
        intro el jdx
        induction el generalizing jdx with
        | nil => rfl
        | cons ee erest eih =>
          rw [List.foldl_cons, List.foldl_cons, eih, entry_foldl_eq]
      exact hent _ _
  exact hsec _ _

theorem mem_entryRegs {q : Str × SearchLocation} {si ei : Nat} {e : RepositoryEntry} :
    q ∈ entryRegs si ei e ↔
      ((q.1 ∈ indexTokens e.title ∧
        q.2 = mkLocation e.title si (some ei) SearchPriority.RepositoryName (some e.url)) ∨
       (e.description ≠ [] ∧ q.1 ∈ indexTokens e.description ∧
        q.2 = mkLocation e.description si (some ei) SearchPriority.Description (some e.url))) := by
  obtain ⟨qw, ql⟩ := q
  unfold entryRegs
  by_cases hd : e.description = []
  · simp only [hd, ne_eq, not_true_eq_false, if_false, List.append_nil, List.mem_map,
      Prod.mk.injEq]
    constructor
    · rintro ⟨w, hw, rfl, rfl⟩
      exact Or.inl ⟨hw, rfl⟩
    · rintro (⟨hw, rfl⟩ | ⟨hne, -, -⟩)
      · exact ⟨qw, hw, rfl, rfl⟩
      · exact hne.elim
  · simp only [hd, ne_eq, not_false_eq_true, if_true, List.mem_append, List.mem_map,
      Prod.mk.injEq]
    constructor
    · rintro (⟨w, hw, rfl, rfl⟩ | ⟨w, hw, rfl, rfl⟩)
      · exact Or.inl ⟨hw, rfl⟩
      · exact Or.inr ⟨trivial, hw, rfl⟩
    · rintro (⟨hw, rfl⟩ | ⟨-, hw, rfl⟩)
      · exact Or.inl ⟨qw, hw, rfl, rfl⟩
      · exact Or.inr ⟨qw, hw, rfl, rfl⟩

theorem mem_allRegs {q : Str × SearchLocation} {sections : List Section} :
    q ∈ allRegs sections ↔
      ∃ si sec, sections[si]? = some sec ∧ ∃ ei entry,
        sec.entries[ei]? = some entry ∧ q ∈ entryRegs si ei entry := by
  unfold allRegs
  constructor
  · intro hq
    obtain ⟨⟨si, sec⟩, hse, hq2⟩ := List.mem_flatMap.mp hq
    rw [List.mk_mem_enum_iff_getElem?] at hse
    obtain ⟨⟨ei, entry⟩, hee, hq3⟩ := List.mem_flatMap.mp hq2
    rw [List.mk_mem_enum_iff_getElem?] at hee
    exact ⟨si, sec, hse, ei, entry, hee, hq3⟩
  · rintro ⟨si, sec, hse, ei, entry, hee, hq⟩
    refine List.mem_flatMap.mpr ⟨(si, sec), ?_, List.mem_flatMap.mpr ⟨(ei, entry), ?_, hq⟩⟩
    · exact (List.mk_mem_enum_iff_getElem?).mpr hse
    · exact (List.mk_mem_enum_iff_getElem?).mpr hee

/-- C8: the index builder registers exactly the cleaned whitespace-split
tokens of entry titles (priority RepositoryName) and of non-empty entry
descriptions (priority Description), each location carrying the full source
text and the entry URL; nothing else (in particular no section title or raw
content) is indexed, and total_terms equals both the number of registrations
and the sum of the bucket lengths. -/
theorem build_search_index_characterization (sections : List Section) :
    (build_search_index sections).total_terms = (allRegs sections).length ∧
    (build_search_index sections).total_terms =
      bucketSum (build_search_index sections).terms ∧
    (∀ t loc, (t, loc) ∈ pairsOf (build_search_index sections).terms ↔
      ∃ si sec, sections[si]? = some sec ∧ ∃ ei entry,
        sec.entries[ei]? = some entry ∧
        ((t ∈ indexTokens entry.title ∧
           loc = mkLocation entry.title si (some ei)
             SearchPriority.RepositoryName (some entry.url)) ∨
         (entry.description ≠ [] ∧ t ∈ indexTokens entry.description ∧
           loc = mkLocation entry.description si (some ei)
             SearchPriority.Description (some entry.url)))) := by
  refine ⟨?_, ?_, ?_⟩
  · rw [build_search_index_eq, foldl_addPair_total,
      show (default : SearchIndex).total_terms = 0 from rfl, Nat.zero_add]
  · rw [build_search_index_eq, foldl_addPair_total, foldl_addPair_bucketSum,
      show (default : SearchIndex).total_terms = 0 from rfl,
      show bucketSum (default : SearchIndex).terms = 0 from rfl]
  · intro t loc
    rw [build_search_index_eq, mem_pairsOf_foldl_addPair]
    have h0 : pairsOf (default : SearchIndex).terms = [] := rfl
    rw [h0]
    simp only [List.not_mem_nil, false_or]
    constructor
    · rintro ⟨q, hq, heq⟩
      obtain ⟨si, sec, hse, ei, entry, hee, hqe⟩ := mem_allRegs.mp hq
      have hmem := mem_entryRegs.mp hqe
      refine ⟨si, sec, hse, ei, entry, hee, ?_⟩
      injection heq with h1 h2
      rcases hmem with ⟨ht, hl⟩ | ⟨hd, ht, hl⟩
      · left
        subst h1 h2
        rw [indexTokens_lower_fix ht]
        exact ⟨ht, hl⟩
      · right
        subst h1 h2
        rw [indexTokens_lower_fix ht]
        exact ⟨hd, ht, hl⟩
    · rintro ⟨si, sec, hse, ei, entry, hee, hcase⟩
      rcases hcase with ⟨ht, rfl⟩ | ⟨hd, ht, rfl⟩
      · refine ⟨(t, mkLocation entry.title si (some ei)
            SearchPriority.RepositoryName (some entry.url)),
          mem_allRegs.mpr ⟨si, sec, hse, ei, entry, hee,
            mem_entryRegs.mpr (Or.inl ⟨ht, rfl⟩)⟩, ?_⟩
        rw [indexTokens_lower_fix ht]
      · refine ⟨(t, mkLocation entry.description si (some ei)
            SearchPriority.Description (some entry.url)),
          mem_allRegs.mpr ⟨si, sec, hse, ei, entry, hee,
            mem_entryRegs.mpr (Or.inr ⟨hd, ht, rfl⟩)⟩, ?_⟩
        rw [indexTokens_lower_fix ht]

/-! ## Query engine: contribution stream and aggregation -/

theorem mem_searchContribs {terms : List (Str × List SearchLocation)} {q : Str}
    {c : EntryKey × SearchLocation × ℚ} :
    c ∈ searchContribs terms q ↔
      ∃ t locs, (t, locs) ∈ terms ∧ containsSub t q = true ∧
        ∃ loc ∈ locs, loc.search_priority ≠ SearchPriority.RawContent ∧
          c = ((loc.section_index, loc.entry_index), loc,
            calculate_relevance_score t q * loc.search_priority.score_multiplier) := by
  unfold searchContribs
  rw [List.mem_flatMap]
  constructor
  · rintro ⟨⟨t, locs⟩, htl, hc⟩
    by_cases hct : containsSub t q = true
    · rw [if_pos hct] at hc
      obtain ⟨loc, hloc, heq⟩ := List.mem_filterMap.mp hc
      by_cases hpr : loc.search_priority = SearchPriority.RawContent
      · rw [if_pos hpr] at heq
        cases heq
      · rw [if_neg hpr] at heq
        rw [Option.some_inj] at heq
        subst heq
        exact ⟨t, locs, htl, hct, loc, hloc, hpr, rfl⟩
    · rw [if_neg hct] at hc
      cases hc
  · rintro ⟨t, locs, htl, hct, loc, hloc, hpr, rfl⟩
    refine ⟨(t, locs), htl, ?_⟩
    rw [if_pos hct]
    exact List.mem_filterMap.mpr ⟨loc, hloc, by rw [if_neg hpr]⟩

theorem searchContribs_wf {terms : List (Str × List SearchLocation)} {q : Str}
    {c : EntryKey × SearchLocation × ℚ} (h : c ∈ searchContribs terms q) :
    c.1 = (c.2.1.section_index, c.2.1.entry_index) := by
  obtain ⟨t, locs, -, -, loc, -, -, rfl⟩ := mem_searchContribs.mp h
  rfl

theorem aggInsert_of_not_mem {k : EntryKey} {loc : SearchLocation} {score : ℚ}
    {acc : List (EntryKey × SearchResult × ℚ)} (h : ∀ e ∈ acc, e.1 ≠ k) :
    aggInsert k loc score acc = acc ++ [(k, mkResult loc score, score)] := by
  induction acc with
  | nil => rfl
  | cons e rest ih =>
    obtain ⟨k', r, m⟩ := e
    have hk : k' ≠ k := h (k', r, m) (List.mem_cons_self _ _)
    unfold aggInsert
    rw [if_neg hk, ih fun f hf => h f (List.mem_cons_of_mem _ hf)]
    rfl

theorem mem_aggInsert {k : EntryKey} {loc : SearchLocation} {score : ℚ}
    {acc : List (EntryKey × SearchResult × ℚ)}
    (hnd : (acc.map fun e => e.1).Nodup) {e : EntryKey × SearchResult × ℚ} :
    e ∈ aggInsert k loc score acc ↔
      (e ∈ acc ∧ e.1 ≠ k) ∨
      ((∀ f ∈ acc, f.1 ≠ k) ∧ e = (k, mkResult loc score, score)) ∨
      (∃ r m, (k, r, m) ∈ acc ∧ e = (k, modifyRes loc score r m)) := by
  induction acc with
  | nil =>
    unfold aggInsert
    constructor
    · intro he
      rcases List.mem_singleton.mp he with rfl
      exact Or.inr (Or.inl ⟨fun f hf => absurd hf (List.not_mem_nil f), rfl⟩)
    · rintro (⟨he, -⟩ | ⟨-, rfl⟩ | ⟨r, m, hm, -⟩)
      · exact absurd he (List.not_mem_nil e)
      · exact List.mem_singleton.mpr rfl
      · exact absurd hm (List.not_mem_nil _)
  | cons f rest ih =>
    obtain ⟨k', r', m'⟩ := f
    rw [List.map_cons, List.nodup_cons] at hnd
    obtain ⟨hknotin, hndr⟩ := hnd
    by_cases hk : k' = k
    · subst hk
      unfold aggInsert
      rw [if_pos rfl]
      have hrest : ∀ f ∈ rest, f.1 ≠ k' := by
        intro f hf hc
        exact hknotin (List.mem_map.mpr ⟨f, hf, hc⟩)
      constructor
      · intro he
        rcases List.mem_cons.mp he with rfl | he
        · exact Or.inr (Or.inr ⟨r', m', List.mem_cons_self _ _, rfl⟩)
        · exact Or.inl ⟨List.mem_cons_of_mem _ he, hrest e he⟩
      · rintro (⟨he, hek⟩ | ⟨hall, rfl⟩ | ⟨r, m, hm, rfl⟩)
        · rcases List.mem_cons.mp he with rfl | he
          · exact absurd rfl hek
          · exact List.mem_cons_of_mem _ he
        · exact absurd rfl (hall (k', r', m') (List.mem_cons_self _ _))
        · rcases List.mem_cons.mp hm with heq | hm
          · injection heq with h1 h2
            injection h2 with h2a h2b
            subst h2a h2b
            exact List.mem_cons_self _ _
          · exact absurd rfl (hrest (k', r, m) hm)
    · unfold aggInsert
      rw [if_neg hk]
      constructor
      · intro he
        rcases List.mem_cons.mp he with rfl | he
        · exact Or.inl ⟨List.mem_cons_self _ _, hk⟩
        · rcases (ih hndr).mp he with ⟨hee, hek⟩ | ⟨hall, rfl⟩ | ⟨r, m, hm, rfl⟩
          · exact Or.inl ⟨List.mem_cons_of_mem _ hee, hek⟩
          · refine Or.inr (Or.inl ⟨?_, rfl⟩)
            intro f hf
            rcases List.mem_cons.mp hf with rfl | hf
            · exact hk
            · exact hall f hf
          · exact Or.inr (Or.inr ⟨r, m, List.mem_cons_of_mem _ hm, rfl⟩)
      · rintro (⟨he, hek⟩ | ⟨hall, rfl⟩ | ⟨r, m, hm, rfl⟩)
        · rcases List.mem_cons.mp he with rfl | he
          · exact List.mem_cons_self _ _
          · exact List.mem_cons_of_mem _ ((ih hndr).mpr (Or.inl ⟨he, hek⟩))
        · refine List.mem_cons_of_mem _ ((ih hndr).mpr (Or.inr (Or.inl ⟨?_, rfl⟩)))
          intro f hf
          exact hall f (List.mem_cons_of_mem _ hf)
        · rcases List.mem_cons.mp hm with heq | hm
          · injection heq with h1 h2
            exact absurd h1.symm hk
          · exact List.mem_cons_of_mem _ ((ih hndr).mpr (Or.inr (Or.inr ⟨r, m, hm, rfl⟩)))

theorem aggInsert_keys_of_mem {k : EntryKey} {loc : SearchLocation} {score : ℚ}
    {acc : List (EntryKey × SearchResult × ℚ)} (h : ∃ f ∈ acc, f.1 = k) :
    (aggInsert k loc score acc).map (fun e => e.1) = acc.map fun e => e.1 := by
  induction acc with
  | nil =>
    obtain ⟨f, hf, -⟩ := h
    exact absurd hf (List.not_mem_nil f)
  | cons f rest ih =>
    obtain ⟨k', r', m'⟩ := f
    by_cases hk : k' = k
    · unfold aggInsert
      rw [if_pos hk]
      rfl
    · have h' : ∃ f ∈ rest, f.1 = k := by
        obtain ⟨f, hf, hfk⟩ := h
        rcases List.mem_cons.mp hf with rfl | hf2
        · exact absurd hfk hk
        · exact ⟨f, hf2, hfk⟩
      unfold aggInsert
      rw [if_neg hk, List.map_cons, List.map_cons, ih h']

/-- Invariant of the aggregation map after processing the contribution prefix
`P`: keys are unique and correspond exactly to the keys of `P`; every entry
carries its key in its result, its tracked maximum as its score, that maximum
is attained by and bounds all contributions at its key, repository-name text
wins the display whenever such a contribution exists, and the display always
comes from some contribution at the key. -/
def AggInv (P : List (EntryKey × SearchLocation × ℚ))
    (acc : List (EntryKey × SearchResult × ℚ)) : Prop :=
  ((acc.map fun e => e.1).Nodup) ∧
  (∀ k, (∃ e ∈ acc, e.1 = k) ↔ ∃ c ∈ P, c.1 = k) ∧
  ∀ e ∈ acc,
    e.2.1.section_index = e.1.1 ∧
    e.2.1.entry_index = e.1.2 ∧
    e.2.1.relevance_score = e.2.2 ∧
    (∃ c ∈ P, c.1 = e.1 ∧ c.2.2 = e.2.2) ∧
    (∀ c ∈ P, c.1 = e.1 → c.2.2 ≤ e.2.2) ∧
    ((∃ c ∈ P, c.1 = e.1 ∧ c.2.1.search_priority = SearchPriority.RepositoryName) →
      ∃ c ∈ P, c.1 = e.1 ∧ c.2.1.search_priority = SearchPriority.RepositoryName ∧
        e.2.1.line_content = c.2.1.line_content) ∧
    (∃ c ∈ P, c.1 = e.1 ∧ e.2.1.line_content = c.2.1.line_content)

theorem aggInv_step {P : List (EntryKey × SearchLocation × ℚ)}
    {acc : List (EntryKey × SearchResult × ℚ)} (hinv : AggInv P acc)
    (c : EntryKey × SearchLocation × ℚ)
    (hwf : c.1 = (c.2.1.section_index, c.2.1.entry_index)) :
    AggInv (P ++ [c]) (aggStep acc c) := by
  obtain ⟨k, loc, score⟩ := c
  simp only at hwf
  obtain ⟨hnd, hkeys, helem⟩ := hinv
  show AggInv (P ++ [(k, loc, score)]) (aggInsert k loc score acc)
  by_cases hmem : ∃ f ∈ acc, f.1 = k
  · -- an aggregate for this key exists: the and_modify path
    refine ⟨?_, ?_, ?_⟩
    · rw [aggInsert_keys_of_mem hmem]
      exact hnd
    · intro k0
      have hsame : (∃ e ∈ aggInsert k loc score acc, e.1 = k0) ↔
          ∃ e ∈ acc, e.1 = k0 := by
        constructor
        · rintro ⟨e, he, hek⟩
          have hm : e.1 ∈ (aggInsert k loc score acc).map fun e => e.1 :=
            List.mem_map.mpr ⟨e, he, rfl⟩
          rw [aggInsert_keys_of_mem hmem] at hm
          obtain ⟨f, hf, hfk⟩ := List.mem_map.mp hm
          exact ⟨f, hf, by rw [hfk, hek]⟩
        · rintro ⟨e, he, hek⟩
          have hm : e.1 ∈ acc.map fun e => e.1 := List.mem_map.mpr ⟨e, he, rfl⟩
          rw [← @aggInsert_keys_of_mem k loc score acc hmem] at hm
          obtain ⟨f, hf, hfk⟩ := List.mem_map.mp hm
          exact ⟨f, hf, by rw [hfk, hek]⟩
      rw [hsame, hkeys k0]
      constructor
      · rintro ⟨c0, hc0, hk0⟩
        exact ⟨c0, List.mem_append_left _ hc0, hk0⟩
      · rintro ⟨c0, hc0, hk0⟩
        rcases List.mem_append.mp hc0 with hc0 | hc0
        · exact ⟨c0, hc0, hk0⟩
        · rcases List.mem_singleton.mp hc0 with rfl
          obtain ⟨c1, hc1, hck⟩ := (hkeys k).mp hmem
          exact ⟨c1, hc1, by rw [hck]; exact hk0⟩
    · intro e he
      rcases (mem_aggInsert hnd).mp he with ⟨hea, hek⟩ | ⟨hall, rfl⟩ | ⟨r, m, hrm, rfl⟩
      · obtain ⟨h1, h2, h3, h4, h5, h6, h7⟩ := helem e hea
        refine ⟨h1, h2, h3, ?_, ?_, ?_, ?_⟩
        · obtain ⟨c0, hc0, hk0, hs0⟩ := h4
          exact ⟨c0, List.mem_append_left _ hc0, hk0, hs0⟩
        · intro c0 hc0 hk0
          rcases List.mem_append.mp hc0 with hc0 | hc0
          · exact h5 c0 hc0 hk0
          · rcases List.mem_singleton.mp hc0 with rfl
            exact absurd hk0.symm hek
        · intro hrep
          obtain ⟨c0, hc0, hk0, hp0⟩ := hrep
          rcases List.mem_append.mp hc0 with hc0 | hc0
          · obtain ⟨c1, hc1, hk1, hp1, hl1⟩ := h6 ⟨c0, hc0, hk0, hp0⟩
            exact ⟨c1, List.mem_append_left _ hc1, hk1, hp1, hl1⟩
          · rcases List.mem_singleton.mp hc0 with rfl
            exact absurd hk0.symm hek
        · obtain ⟨c0, hc0, hk0, hl0⟩ := h7
          exact ⟨c0, List.mem_append_left _ hc0, hk0, hl0⟩
      · obtain ⟨f, hf, hfk⟩ := hmem
        exact absurd hfk (hall f hf)
      · obtain ⟨h1, h2, h3, h4, h5, h6, h7⟩ := helem (k, r, m) hrm
        by_cases hsc : m < score
        · by_cases hpr : loc.search_priority = SearchPriority.RepositoryName
          · have hred : modifyRes loc score r m =
                ({ r with line_content := loc.line_content,
                          relevance_score := score }, score) := by
              unfold modifyRes
              rw [if_pos hpr, if_pos hsc]
            rw [hred]
            refine ⟨h1, h2, rfl, ?_, ?_, ?_, ?_⟩
            · exact ⟨(k, loc, score),
                List.mem_append_right _ (List.mem_singleton.mpr rfl), rfl, rfl⟩
            · intro c0 hc0 hk0
              rcases List.mem_append.mp hc0 with hc0 | hc0
              · exact le_of_lt (lt_of_le_of_lt (h5 c0 hc0 hk0) hsc)
              · rcases List.mem_singleton.mp hc0 with rfl
                exact le_refl _
            · intro _
              exact ⟨(k, loc, score),
                List.mem_append_right _ (List.mem_singleton.mpr rfl), rfl, hpr, rfl⟩
            · exact ⟨(k, loc, score),
                List.mem_append_right _ (List.mem_singleton.mpr rfl), rfl, rfl⟩
          · have hred : modifyRes loc score r m =
                ({ r with relevance_score := score }, score) := by
              unfold modifyRes
              rw [if_neg hpr, if_pos hsc]
            rw [hred]
            refine ⟨h1, h2, rfl, ?_, ?_, ?_, ?_⟩
            · exact ⟨(k, loc, score),
                List.mem_append_right _ (List.mem_singleton.mpr rfl), rfl, rfl⟩
            · intro c0 hc0 hk0
              rcases List.mem_append.mp hc0 with hc0 | hc0
              · exact le_of_lt (lt_of_le_of_lt (h5 c0 hc0 hk0) hsc)
              · rcases List.mem_singleton.mp hc0 with rfl
                exact le_refl _
            · intro hrep
              obtain ⟨c0, hc0, hk0, hp0⟩ := hrep
              rcases List.mem_append.mp hc0 with hc0 | hc0
              · obtain ⟨c1, hc1, hk1, hp1, hl1⟩ := h6 ⟨c0, hc0, hk0, hp0⟩
                exact ⟨c1, List.mem_append_left _ hc1, hk1, hp1, hl1⟩
              · rcases List.mem_singleton.mp hc0 with rfl
                exact absurd hp0 hpr
            · obtain ⟨c0, hc0, hk0, hl0⟩ := h7
              exact ⟨c0, List.mem_append_left _ hc0, hk0, hl0⟩
        · by_cases hpr : loc.search_priority = SearchPriority.RepositoryName
          · have hred : modifyRes loc score r m =
                ({ r with line_content := loc.line_content }, m) := by
              unfold modifyRes
              rw [if_pos hpr, if_neg hsc]
            rw [hred]
            refine ⟨h1, h2, h3, ?_, ?_, ?_, ?_⟩
            · obtain ⟨c0, hc0, hk0, hs0⟩ := h4
              exact ⟨c0, List.mem_append_left _ hc0, hk0, hs0⟩
            · intro c0 hc0 hk0
              rcases List.mem_append.mp hc0 with hc0 | hc0
              · exact h5 c0 hc0 hk0
              · rcases List.mem_singleton.mp hc0 with rfl
                exact le_of_not_lt hsc
            · intro _
              exact ⟨(k, loc, score),
                List.mem_append_right _ (List.mem_singleton.mpr rfl), rfl, hpr, rfl⟩
            · exact ⟨(k, loc, score),
                List.mem_append_right _ (List.mem_singleton.mpr rfl), rfl, rfl⟩
          · have hred : modifyRes loc score r m = (r, m) := by
              unfold modifyRes
              rw [if_neg hpr, if_neg hsc]
            rw [hred]
            refine ⟨h1, h2, h3, ?_, ?_, ?_, ?_⟩
            · obtain ⟨c0, hc0, hk0, hs0⟩ := h4
              exact ⟨c0, List.mem_append_left _ hc0, hk0, hs0⟩
            · intro c0 hc0 hk0
              rcases List.mem_append.mp hc0 with hc0 | hc0
              · exact h5 c0 hc0 hk0
              · rcases List.mem_singleton.mp hc0 with rfl
                exact le_of_not_lt hsc
            · intro hrep
              obtain ⟨c0, hc0, hk0, hp0⟩ := hrep
              rcases List.mem_append.mp hc0 with hc0 | hc0
              · obtain ⟨c1, hc1, hk1, hp1, hl1⟩ := h6 ⟨c0, hc0, hk0, hp0⟩
                exact ⟨c1, List.mem_append_left _ hc1, hk1, hp1, hl1⟩
              · rcases List.mem_singleton.mp hc0 with rfl
                exact absurd hp0 hpr
            · obtain ⟨c0, hc0, hk0, hl0⟩ := h7
              exact ⟨c0, List.mem_append_left _ hc0, hk0, hl0⟩
  · -- no aggregate for this key yet: the or_insert path
    have hall : ∀ f ∈ acc, f.1 ≠ k := by
      push_neg at hmem
      exact hmem
    rw [aggInsert_of_not_mem hall]
    have hnoPk : ∀ c0 ∈ P, c0.1 ≠ k := by
      intro c0 hc0 hck
      exact absurd ((hkeys k).mpr ⟨c0, hc0, hck⟩) hmem
    refine ⟨?_, ?_, ?_⟩
    · rw [List.map_append, List.map_singleton, List.nodup_append]
      refine ⟨hnd, List.nodup_singleton _, ?_⟩
      intro a ha hb
      rcases List.mem_singleton.mp hb with rfl
      obtain ⟨f, hf, hfk⟩ := List.mem_map.mp ha
      exact hall f hf hfk
    · intro k0
      constructor
      · rintro ⟨e, he, hek⟩
        rcases List.mem_append.mp he with he | he
        · obtain ⟨c0, hc0, hck⟩ := (hkeys k0).mp ⟨e, he, hek⟩
          exact ⟨c0, List.mem_append_left _ hc0, hck⟩
        · rcases List.mem_singleton.mp he with rfl
          exact ⟨(k, loc, score),
            List.mem_append_right _ (List.mem_singleton.mpr rfl), hek⟩
      · rintro ⟨c0, hc0, hck⟩
        rcases List.mem_append.mp hc0 with hc0 | hc0
        · obtain ⟨e, he, hek⟩ := (hkeys k0).mpr ⟨c0, hc0, hck⟩
          exact ⟨e, List.mem_append_left _ he, hek⟩
        · rcases List.mem_singleton.mp hc0 with rfl
          exact ⟨(k, mkResult loc score, score),
            List.mem_append_right _ (List.mem_singleton.mpr rfl), hck⟩
    · intro e he
      rcases List.mem_append.mp he with he | he
      · obtain ⟨h1, h2, h3, h4, h5, h6, h7⟩ := helem e he
        have hek : e.1 ≠ k := hall e he
        refine ⟨h1, h2, h3, ?_, ?_, ?_, ?_⟩
        · obtain ⟨c0, hc0, hk0, hs0⟩ := h4
          exact ⟨c0, List.mem_append_left _ hc0, hk0, hs0⟩
        · intro c0 hc0 hk0
          rcases List.mem_append.mp hc0 with hc0 | hc0
          · exact h5 c0 hc0 hk0
          · rcases List.mem_singleton.mp hc0 with rfl
            exact absurd hk0.symm hek
        · intro hrep
          obtain ⟨c0, hc0, hk0, hp0⟩ := hrep
          rcases List.mem_append.mp hc0 with hc0 | hc0
          · obtain ⟨c1, hc1, hk1, hp1, hl1⟩ := h6 ⟨c0, hc0, hk0, hp0⟩
            exact ⟨c1, List.mem_append_left _ hc1, hk1, hp1, hl1⟩
          · rcases List.mem_singleton.mp hc0 with rfl
            exact absurd hk0.symm hek
        · obtain ⟨c0, hc0, hk0, hl0⟩ := h7
          exact ⟨c0, List.mem_append_left _ hc0, hk0, hl0⟩
      · rcases List.mem_singleton.mp he with rfl
        refine ⟨?_, ?_, rfl, ?_, ?_, ?_, ?_⟩
        · show loc.section_index = k.1
          rw [hwf]
        · show loc.entry_index = k.2
          rw [hwf]
        · exact ⟨(k, loc, score),
            List.mem_append_right _ (List.mem_singleton.mpr rfl), rfl, rfl⟩
        · intro c0 hc0 hk0
          rcases List.mem_append.mp hc0 with hc0 | hc0
          · exact absurd hk0 (hnoPk c0 hc0)
          · rcases List.mem_singleton.mp hc0 with rfl
            exact le_refl _
        · intro hrep
          obtain ⟨c0, hc0, hk0, hp0⟩ := hrep
          rcases List.mem_append.mp hc0 with hc0 | hc0
          · exact absurd hk0 (hnoPk c0 hc0)
          · rcases List.mem_singleton.mp hc0 with rfl
            exact ⟨(k, loc, score),
              List.mem_append_right _ (List.mem_singleton.mpr rfl), rfl, hp0, rfl⟩
        · exact ⟨(k, loc, score),
            List.mem_append_right _ (List.mem_singleton.mpr rfl), rfl, rfl⟩

theorem aggInv_nil : AggInv [] [] := by
  refine ⟨List.nodup_nil, ?_, ?_⟩
  · intro k
    constructor
    · rintro ⟨e, he, -⟩
      exact absurd he (List.not_mem_nil e)
    · rintro ⟨c, hc, -⟩
      exact absurd hc (List.not_mem_nil c)
  · intro e he
    exact absurd he (List.not_mem_nil e)

theorem aggInv_foldl_aux (S : List (EntryKey × SearchLocation × ℚ)) :
    ∀ (P : List (EntryKey × SearchLocation × ℚ))
      (acc : List (EntryKey × SearchResult × ℚ)), AggInv P acc →
      (∀ c ∈ S, c.1 = (c.2.1.section_index, c.2.1.entry_index)) →
      AggInv (P ++ S) (S.foldl aggStep acc) := by
  induction S with
  | nil =>
    intro P acc h _
    simpa using h
  | cons c rest ih =>
    intro P acc h hwf
    rw [List.foldl_cons]
    have h1 := aggInv_step h c (hwf c (List.mem_cons_self _ _))
    have h2 := ih (P ++ [c]) _ h1 fun d hd => hwf d (List.mem_cons_of_mem _ hd)
    rw [List.append_assoc, List.singleton_append] at h2
    exact h2

theorem aggInv_search (idx : SearchIndex) (q : Str) :
    AggInv (searchContribs idx.terms q)
      ((searchContribs idx.terms q).foldl aggStep []) := by
  have h := aggInv_foldl_aux (searchContribs idx.terms q) [] [] aggInv_nil
    fun c hc => searchContribs_wf hc
  simpa using h

theorem search_perm (idx : SearchIndex) (query : Str) :
    (idx.search query).Perm
      (((searchContribs idx.terms (toLowerStr query)).foldl aggStep []).map
        fun e => e.2.1) := by
  unfold SearchIndex.search
  exact List.mergeSort_perm _ _

theorem search_key_iff (idx : SearchIndex) (query : Str) (k : EntryKey) :
    (∃ r ∈ idx.search query, (r.section_index, r.entry_index) = k) ↔
      ∃ c ∈ searchContribs idx.terms (toLowerStr query), c.1 = k := by
  have hperm := search_perm idx query
  obtain ⟨hnd, hkeys, helem⟩ := aggInv_search idx (toLowerStr query)
  rw [← hkeys k]
  constructor
  · rintro ⟨r, hr, hk⟩
    have hr2 := hperm.mem_iff.mp hr
    obtain ⟨e, he, rfl⟩ := List.mem_map.mp hr2
    obtain ⟨h1, h2, -⟩ := helem e he
    refine ⟨e, he, ?_⟩
    rw [← hk, h1, h2]
  · rintro ⟨e, he, hek⟩
    obtain ⟨h1, h2, -⟩ := helem e he
    refine ⟨e.2.1, hperm.mem_iff.mpr (List.mem_map.mpr ⟨e, he, rfl⟩), ?_⟩
    rw [h1, h2, Prod.mk.eta]
    exact hek

theorem search_result_spec (idx : SearchIndex) (query : Str) :
    ∀ r ∈ idx.search query,
      (∃ c ∈ searchContribs idx.terms (toLowerStr query),
        c.1 = (r.section_index, r.entry_index) ∧ c.2.2 = r.relevance_score) ∧
      (∀ c ∈ searchContribs idx.terms (toLowerStr query),
        c.1 = (r.section_index, r.entry_index) → c.2.2 ≤ r.relevance_score) ∧
      ((∃ c ∈ searchContribs idx.terms (toLowerStr query),
          c.1 = (r.section_index, r.entry_index) ∧
          c.2.1.search_priority = SearchPriority.RepositoryName) →
        ∃ c ∈ searchContribs idx.terms (toLowerStr query),
          c.1 = (r.section_index, r.entry_index) ∧
          c.2.1.search_priority = SearchPriority.RepositoryName ∧
          r.line_content = c.2.1.line_content) ∧
      (∃ c ∈ searchContribs idx.terms (toLowerStr query),
        c.1 = (r.section_index, r.entry_index) ∧
        r.line_content = c.2.1.line_content) := by
  intro r hr
  have hperm := search_perm idx query
  obtain ⟨hnd, hkeys, helem⟩ := aggInv_search idx (toLowerStr query)
  have hr2 := hperm.mem_iff.mp hr
  obtain ⟨e, he, rfl⟩ := List.mem_map.mp hr2
  obtain ⟨h1, h2, h3, h4, h5, h6, h7⟩ := helem e he
  have hkey : e.1 = (e.2.1.section_index, e.2.1.entry_index) := by
    rw [h1, h2]
  rw [← hkey]
  exact ⟨by rw [h3]; exact h4, by rw [h3]; exact h5, h6, h7⟩

theorem search_keys_nodup (idx : SearchIndex) (query : Str) :
    ((idx.search query).map fun r => (r.section_index, r.entry_index)).Nodup := by
  have hperm := search_perm idx query
  obtain ⟨hnd, hkeys, helem⟩ := aggInv_search idx (toLowerStr query)
  have hmap := hperm.map fun r => (r.section_index, r.entry_index)
  refine hmap.symm.nodup ?_
  rw [List.map_map]
  have hcongr :
      (((searchContribs idx.terms (toLowerStr query)).foldl aggStep []).map
        ((fun r => (r.section_index, r.entry_index)) ∘ fun e => e.2.1)) =
      ((searchContribs idx.terms (toLowerStr query)).foldl aggStep []).map
        fun e => e.1 := by
    apply List.map_congr_left
    intro e he
    obtain ⟨h1, h2, -⟩ := helem e he
    show (e.2.1.section_index, e.2.1.entry_index) = e.1
    rw [h1, h2]
  rw [hcongr]
  exact hnd

theorem search_sorted (idx : SearchIndex) (query : Str) :
    (idx.search query).Sorted
      fun a b => b.relevance_score ≤ a.relevance_score := by
  have htrans : ∀ a b c : SearchResult,
      scoreLe a b = true → scoreLe b c = true → scoreLe a c = true := by
    intro a b c hab hbc
    simp only [scoreLe, decide_eq_true_eq] at hab hbc ⊢
    exact le_trans hbc hab
  have htot : ∀ a b : SearchResult, (scoreLe a b || scoreLe b a) = true := by
    intro a b
    simp only [scoreLe, Bool.or_eq_true, decide_eq_true_eq]
    exact le_total _ _
  have hs := List.sorted_mergeSort htrans htot
    (((searchContribs idx.terms (toLowerStr query)).foldl aggStep []).map
      fun e => e.2.1)
  unfold SearchIndex.search
  refine List.Pairwise.imp ?_ hs
  intro a b hab
  simpa [scoreLe] using hab

theorem score_multiplier_of_ne_raw {p : SearchPriority}
    (h : p ≠ SearchPriority.RawContent) :
    p.score_multiplier = if p = SearchPriority.RepositoryName then 2 else 3 / 2 := by
  cases p
  · rfl
  · rfl
  · exact absurd rfl h

theorem contribs_key_iff (idx : SearchIndex) (q : Str) (k : EntryKey) :
    (∃ c ∈ searchContribs idx.terms q, c.1 = k) ↔
      ∃ t locs, (t, locs) ∈ idx.terms ∧ containsSub t q = true ∧ ∃ loc ∈ locs,
        loc.search_priority ≠ SearchPriority.RawContent ∧
        (loc.section_index, loc.entry_index) = k := by
  constructor
  · rintro ⟨c, hc, hck⟩
    obtain ⟨t, locs, htl, hct, loc, hloc, hpr, rfl⟩ := mem_searchContribs.mp hc
    exact ⟨t, locs, htl, hct, loc, hloc, hpr, hck⟩
  · rintro ⟨t, locs, htl, hct, loc, hloc, hpr, hk⟩
    exact ⟨((loc.section_index, loc.entry_index), loc,
        calculate_relevance_score t q * loc.search_priority.score_multiplier),
      mem_searchContribs.mpr ⟨t, locs, htl, hct, loc, hloc, hpr, rfl⟩, hk⟩

/-! ## Claim theorems: query engine -/

/-- C6: for every non-empty query (lowercased internally), a key appears in
the results exactly when some index term containing the query as a substring
has a non-RawContent location with that key — so no result ever originates
from a RawContent location — and every result's score has the form
base * multiplier with base 1, 4/5, 3/5 or 2/5 by match class and multiplier
2 for RepositoryName and 3/2 for Description. -/
theorem search_considers_exactly (idx : SearchIndex) (query : Str)
    (_hq : query ≠ []) :
    (∀ k : EntryKey,
      (∃ r ∈ idx.search query, (r.section_index, r.entry_index) = k) ↔
      (∃ t locs, (t, locs) ∈ idx.terms ∧
        containsSub t (toLowerStr query) = true ∧ ∃ loc ∈ locs,
          loc.search_priority ≠ SearchPriority.RawContent ∧
          (loc.section_index, loc.entry_index) = k)) ∧
    (∀ r ∈ idx.search query, ∃ t locs loc,
      (t, locs) ∈ idx.terms ∧ loc ∈ locs ∧
      containsSub t (toLowerStr query) = true ∧
      loc.search_priority ≠ SearchPriority.RawContent ∧
      (loc.section_index, loc.entry_index) = (r.section_index, r.entry_index) ∧
      r.relevance_score =
        (if t = toLowerStr query then (1 : ℚ)
          else if strStartsWith t (toLowerStr query) then 4 / 5
          else if strEndsWith t (toLowerStr query) then 3 / 5
          else 2 / 5) *
        (if loc.search_priority = SearchPriority.RepositoryName then 2 else 3 / 2)) := by
  constructor
  · intro k
    rw [search_key_iff idx query k]
    exact contribs_key_iff idx (toLowerStr query) k
  · intro r hr
    obtain ⟨⟨c, hc, hck, hcs⟩, -, -, -⟩ := search_result_spec idx query r hr
    obtain ⟨t, locs, htl, hct, loc, hloc, hpr, rfl⟩ := mem_searchContribs.mp hc
    refine ⟨t, locs, loc, htl, hloc, hct, hpr, hck, ?_⟩
    rw [← hcs]
    show calculate_relevance_score t (toLowerStr query) *
      loc.search_priority.score_multiplier = _
    rw [score_multiplier_of_ne_raw hpr]
    rfl

/-- C7: search returns at most one result per distinct key, each result's
score is attained by a contributing location and bounds every contribution at
its key, repository-name source text supplies the display whenever a
repository-name location contributes to the key, and the result list is
sorted by descending relevance score. -/
theorem search_aggregation (idx : SearchIndex) (query : Str) :
    ((idx.search query).map fun r => (r.section_index, r.entry_index)).Nodup ∧
    (∀ r ∈ idx.search query,
      (∃ t locs loc, (t, locs) ∈ idx.terms ∧ loc ∈ locs ∧
        containsSub t (toLowerStr query) = true ∧
        loc.search_priority ≠ SearchPriority.RawContent ∧
        (loc.section_index, loc.entry_index) = (r.section_index, r.entry_index) ∧
        r.relevance_score = calculate_relevance_score t (toLowerStr query) *
          loc.search_priority.score_multiplier) ∧
      (∀ t locs loc, (t, locs) ∈ idx.terms → loc ∈ locs →
        containsSub t (toLowerStr query) = true →
        loc.search_priority ≠ SearchPriority.RawContent →
        (loc.section_index, loc.entry_index) = (r.section_index, r.entry_index) →
        calculate_relevance_score t (toLowerStr query) *
          loc.search_priority.score_multiplier ≤ r.relevance_score) ∧
      ((∃ t locs loc, (t, locs) ∈ idx.terms ∧ loc ∈ locs ∧
          containsSub t (toLowerStr query) = true ∧
          loc.search_priority = SearchPriority.RepositoryName ∧
          (loc.section_index, loc.entry_index) =
            (r.section_index, r.entry_index)) →
        ∃ t locs loc, (t, locs) ∈ idx.terms ∧ loc ∈ locs ∧
          containsSub t (toLowerStr query) = true ∧
          loc.search_priority = SearchPriority.RepositoryName ∧
          (loc.section_index, loc.entry_index) =
            (r.section_index, r.entry_index) ∧
          r.line_content = loc.line_content)) ∧
    (idx.search query).Sorted fun a b => b.relevance_score ≤ a.relevance_score := by
  refine ⟨search_keys_nodup idx query, ?_, search_sorted idx query⟩
  intro r hr
  obtain ⟨⟨c, hc, hck, hcs⟩, hbound, hrep, -⟩ := search_result_spec idx query r hr
  refine ⟨?_, ?_, ?_⟩
  · obtain ⟨t, locs, htl, hct, loc, hloc, hpr, rfl⟩ := mem_searchContribs.mp hc
    exact ⟨t, locs, loc, htl, hloc, hct, hpr, hck, hcs.symm⟩
  · intro t locs loc htl hloc hct hpr hkey
    exact hbound ((loc.section_index, loc.entry_index), loc,
        calculate_relevance_score t (toLowerStr query) *
          loc.search_priority.score_multiplier)
      (mem_searchContribs.mpr ⟨t, locs, htl, hct, loc, hloc, hpr, rfl⟩) hkey
  · rintro ⟨t, locs, loc, htl, hloc, hct, hpr, hkey⟩
    have hpr' : loc.search_priority ≠ SearchPriority.RawContent := by
      rw [hpr]
      intro hcon
      cases hcon
    obtain ⟨c1, hc1, hk1, hp1, hl1⟩ := hrep
      ⟨((loc.section_index, loc.entry_index), loc,
          calculate_relevance_score t (toLowerStr query) *
            loc.search_priority.score_multiplier),
        mem_searchContribs.mpr ⟨t, locs, htl, hct, loc, hloc, hpr', rfl⟩, hkey, hpr⟩
    obtain ⟨t1, locs1, htl1, hct1, loc1, hloc1, hpr1, rfl⟩ := mem_searchContribs.mp hc1
    exact ⟨t1, locs1, loc1, htl1, hloc1, hct1, hp1, hk1, hl1⟩

/-- Concrete one-term index used by the query-engine witnesses: the term
"rust" with a single repository-name location. -/
def exLoc : SearchLocation :=
  { section_index := 0
    entry_index := some 0
    line_content := "Rust CLI".toList
    start_pos := 0
    end_pos := 8
    search_priority := SearchPriority.RepositoryName
    github_url := some "https://github.com/user/rust-cli".toList }

def exIdx : SearchIndex := { terms := [("rust".toList, [exLoc])], total_terms := 1 }

/-- The single result `exIdx.search "rust"` produces. -/
def exResult : SearchResult :=
  { section_index := 0
    entry_index := some 0
    line_content := "Rust CLI".toList
    relevance_score := 2
    github_url := some "https://github.com/user/rust-cli".toList }

/-- Witness for C6: the membership characterisation applied to the concrete
one-term index. -/
theorem search_considers_exactly_witness :
    ∃ r ∈ exIdx.search "rust".toList,
      (r.section_index, r.entry_index) = ((0 : Nat), some 0) :=
  ((search_considers_exactly exIdx "rust".toList (by decide)).1
      ((0 : Nat), some 0)).mpr
    ⟨"rust".toList, [exLoc], by decide, by decide, exLoc,
      List.mem_singleton.mpr rfl, by decide, by decide⟩

theorem exIdx_search_rust : exIdx.search "rust".toList = [exResult] := by
  have hsc : calculate_relevance_score "rust".toList (toLowerStr "rust".toList) *
      SearchPriority.RepositoryName.score_multiplier = 2 := by
    rw [show calculate_relevance_score "rust".toList (toLowerStr "rust".toList) = 1
      from by
        unfold calculate_relevance_score
        rw [if_pos (by decide)]]
    rw [show SearchPriority.RepositoryName.score_multiplier = 2 from rfl]
    norm_num
  show (((searchContribs exIdx.terms (toLowerStr "rust".toList)).foldl
      aggStep []).map fun e => e.2.1).mergeSort scoreLe = [exResult]
  have hcon : searchContribs exIdx.terms (toLowerStr "rust".toList) =
      [(((0 : Nat), some 0), exLoc,
        calculate_relevance_score "rust".toList (toLowerStr "rust".toList) *
          SearchPriority.RepositoryName.score_multiplier)] := rfl
  rw [hcon, hsc]
  rw [show ((([(((0 : Nat), some 0), exLoc, (2 : ℚ))]).foldl aggStep []).map
      fun e => e.2.1) = [exResult] from rfl]
  exact List.perm_singleton.mp (List.mergeSort_perm [exResult] scoreLe)

/-- The single result `exIdx.search ""` produces: the empty query matches the
term "rust" as a substring with a prefix-match base score. -/
def exResultE : SearchResult :=
  { section_index := 0
    entry_index := some 0
    line_content := "Rust CLI".toList
    relevance_score := 8 / 5
    github_url := some "https://github.com/user/rust-cli".toList }

theorem exIdx_search_empty : exIdx.search ([] : Str) = [exResultE] := by
  have hsc : calculate_relevance_score "rust".toList (toLowerStr ([] : Str)) *
      SearchPriority.RepositoryName.score_multiplier = 8 / 5 := by
    rw [show calculate_relevance_score "rust".toList (toLowerStr ([] : Str)) = 4 / 5
      from by
        unfold calculate_relevance_score
        rw [if_neg (by decide), if_pos (by decide)]]
    rw [show SearchPriority.RepositoryName.score_multiplier = 2 from rfl]
    norm_num
  show (((searchContribs exIdx.terms (toLowerStr ([] : Str))).foldl
      aggStep []).map fun e => e.2.1).mergeSort scoreLe = [exResultE]
  have hcon : searchContribs exIdx.terms (toLowerStr ([] : Str)) =
      [(((0 : Nat), some 0), exLoc,
        calculate_relevance_score "rust".toList (toLowerStr ([] : Str)) *
          SearchPriority.RepositoryName.score_multiplier)] := rfl
  rw [hcon, hsc]
  rw [show ((([(((0 : Nat), some 0), exLoc, ((8 : ℚ) / 5))]).foldl aggStep []).map
      fun e => e.2.1) = [exResultE] from rfl]
  exact List.perm_singleton.mp (List.mergeSort_perm [exResultE] scoreLe)

/-- Witness for C7: the attained-score clause applied to the concrete
one-term index and its single result. -/
theorem search_aggregation_witness :
    ∃ t locs loc, (t, locs) ∈ exIdx.terms ∧ loc ∈ locs ∧
      containsSub t (toLowerStr "rust".toList) = true ∧
      loc.search_priority ≠ SearchPriority.RawContent ∧
      (loc.section_index, loc.entry_index) =
        (exResult.section_index, exResult.entry_index) ∧
      exResult.relevance_score =
        calculate_relevance_score t (toLowerStr "rust".toList) *
          loc.search_priority.score_multiplier :=
  ((search_aggregation exIdx "rust".toList).2.1 exResult
    (by rw [exIdx_search_rust]; exact List.mem_singleton.mpr rfl)).1

/-- Counterexample to C1 as stated: on a one-term index with one
repository-name location, the empty query returns a non-empty result list
(every term contains the empty string as a substring). -/
theorem search_empty_query_counterexample :
    exIdx.search ([] : Str) ≠ [] := by
  rw [exIdx_search_empty]
  simp

/-- C1 amended: a query (lowercased) contained in no index term yields an
empty result list, and search never fails (it is a total function); but an
empty query matches every term, so it returns one result for every key having
a non-RawContent location rather than an empty list. -/
theorem search_unmatched_and_empty (idx : SearchIndex) (query : Str) :
    ((∀ t locs, (t, locs) ∈ idx.terms →
        containsSub t (toLowerStr query) = false) →
      idx.search query = []) ∧
    (∀ t locs loc, (t, locs) ∈ idx.terms → loc ∈ locs →
      loc.search_priority ≠ SearchPriority.RawContent →
      ∃ r ∈ idx.search ([] : Str),
        (r.section_index, r.entry_index) = (loc.section_index, loc.entry_index)) := by
  constructor
  · intro h
    have hc : searchContribs idx.terms (toLowerStr query) = [] := by
      rw [List.eq_nil_iff_forall_not_mem]
      intro c hcm
      obtain ⟨t, locs, htl, hct, -⟩ := mem_searchContribs.mp hcm
      rw [h t locs htl] at hct
      cases hct
    show (((searchContribs idx.terms (toLowerStr query)).foldl aggStep []).map
      fun e => e.2.1).mergeSort scoreLe = []
    rw [hc]
    simp
  · intro t locs loc htl hloc hpr
    refine (search_key_iff idx [] (loc.section_index, loc.entry_index)).mpr ?_
    exact ⟨((loc.section_index, loc.entry_index), loc,
        calculate_relevance_score t (toLowerStr []) *
          loc.search_priority.score_multiplier),
      mem_searchContribs.mpr
        ⟨t, locs, htl, containsSub_nil_right t, loc, hloc, hpr, rfl⟩, rfl⟩

/-- Witness for the amended C1: on the concrete one-term index, an unmatched
query returns no results and the empty query returns a result for the
indexed entry. -/
theorem search_unmatched_and_empty_witness :
    exIdx.search "zzz".toList = [] ∧
    ∃ r ∈ exIdx.search ([] : Str),
      (r.section_index, r.entry_index) = ((0 : Nat), some 0) :=
  ⟨(search_unmatched_and_empty exIdx "zzz".toList).1 (by
      intro t locs htl
      rcases List.mem_singleton.mp htl with heq
      injection heq with h1 h2
      subst h1
      decide),
   (search_unmatched_and_empty exIdx ([] : Str)).2 "rust".toList [exLoc] exLoc
     (by decide) (List.mem_singleton.mpr rfl) (by decide)⟩

/-! ## Claim theorems: link capture and item reset -/

/-- Concrete event stream with two links inside one list item. -/
def ex9Events : List MdEvent :=
  [.headingStart 2, .text "Tools".toList, .headingEnd,
   .listStart, .itemStart,
   .linkStart "https://github.com/a/b".toList, .text "A".toList, .linkEnd,
   .text " - d".toList,
   .linkStart "https://github.com/c/d".toList, .text "x".toList, .linkEnd,
   .itemEnd]

/-- The section the two-link item produces: its entry carries the second URL. -/
def ex9Section : Section :=
  { title := "Tools".toList
    entries := [{ title := "A".toList
                  url := "https://github.com/c/d".toList
                  description := "dx".toList
                  tags := [] }]
    raw_content := "A - dx\n".toList
    entry_count := 1 }

/-- C9: a link-start event overwrites the single captured-URL slot (last link
wins); the entry extracted at a list-item end carries the currently captured
URL; the item state (flag, text buffer, URL slot) is reset at every list-item
end, even when no entry is produced; and on a concrete stream with two links
in one item the extracted entry carries the second URL. -/
theorem last_link_wins :
    (∀ (s : ParseState) (u : Str),
      parseStep s (.linkStart u) = { s with link_url := u }) ∧
    (∀ s : ParseState, s.is_in_header = false →
      (parseStep s .itemEnd).is_in_list_item = false ∧
      (parseStep s .itemEnd).current_item_text = [] ∧
      (parseStep s .itemEnd).link_url = []) ∧
    (∀ (s : ParseState) (sec : Section), s.is_in_header = false →
      s.current_section = some sec →
      s.is_in_list_item = true → s.link_url ≠ [] →
      strTrim s.current_item_text ≠ [] → is_github_link s.link_url = true →
      (parseStep s .itemEnd).current_section = some
        { sec with raw_content := sec.raw_content ++ ['\n']
                   entries := sec.entries ++
                     [extract_repository_entry s.current_item_text s.link_url]
                   entry_count := sec.entry_count + 1 }) ∧
    (runExtract ex9Events).current_section = some ex9Section := by
  refine ⟨?_, ?_, ?_, ?_⟩
  · intro s u
    rfl
  · intro s h
    have hcond : ¬ s.is_in_header = true := by
      rw [h]
      exact Bool.false_ne_true
    show (itemEndStep s).is_in_list_item = false ∧
      (itemEndStep s).current_item_text = [] ∧ (itemEndStep s).link_url = []
    unfold itemEndStep
    rw [if_neg hcond]
    exact ⟨rfl, rfl, rfl⟩
  · intro s sec hih hsec hil hlu hit hgh
    obtain ⟨sse, scs, sct, sihh, slv, sht, slu, sil, sit, smt, ste⟩ := s
    dsimp only at hih hsec hil hlu hit hgh ⊢
    subst hih hsec hil
    show (itemEndStep _).current_section = _
    simp [itemEndStep, hlu, hit, hgh]
  · decide

/-- Concrete state of an open list item in an open section, used by the C9
witness. -/
def ex9ItemState : ParseState :=
  { initState with
      current_section := some (Section.new "Tools".toList)
      is_in_list_item := true
      current_item_text := "A - b".toList
      link_url := "https://github.com/c/d".toList }

/-- Witness for C9: the overwrite, reset and extraction clauses applied at
concrete states. -/
theorem last_link_wins_witness :
    (parseStep { initState with link_url := "u1".toList }
        (MdEvent.linkStart "u2".toList)) =
      { initState with link_url := "u2".toList } ∧
    (parseStep initState .itemEnd).is_in_list_item = false ∧
    (parseStep initState .itemEnd).current_item_text = [] ∧
    (parseStep initState .itemEnd).link_url = [] ∧
    (parseStep ex9ItemState .itemEnd).current_section = some
      { title := "Tools".toList
        entries := [extract_repository_entry "A - b".toList
          "https://github.com/c/d".toList]
        raw_content := ['\n']
        entry_count := 1 } := by
  refine ⟨?_, (last_link_wins.2.1 initState rfl).1,
    (last_link_wins.2.1 initState rfl).2.1,
    (last_link_wins.2.1 initState rfl).2.2, ?_⟩
  · rw [last_link_wins.1 _ _]
  · exact last_link_wins.2.2.1 ex9ItemState (Section.new "Tools".toList)
      rfl rfl rfl (by decide) (by decide) (by decide)
